/-
Verification of the Mermaid flowchart renderer (`src/pipdeptree/_render/mermaid.py`).

The Python module is shallowly embedded below:
* `_RESERVED_IDS` is the module-level frozen set of reserved Mermaid keywords.
* `mermaid_id` is the memoizing identifier sanitizer; its `node_ids_map`
  dictionary is threaded explicitly as an association list `IdMap` (Python dict
  insertion order and first-match key lookup are preserved).  The unbounded
  `while True` probe loop is embedded as `probeLoop` with `|keys| + 1` fuel,
  which is proved sufficient (`probeLoop_finds_least`): the loop always stops
  at the least free suffix before the fuel runs out, exactly like the Python
  loop, because the `|keys| + 1` candidate strings are pairwise distinct.
* The two traversal branches of `render_mermaid` become `processRevEntry` /
  `processFwdEntry`; the Python `set` objects `nodes` / `edges` become
  duplicate-free lists grown with `setAdd` (a no-op when the string is already
  present), which is observation-equivalent because the sets are only ever
  consumed through `sorted(...)`.
* Python `sorted` on strings is `sortStrings`, insertion sort by the
  code-point lexicographic order (proved equivalent to Mathlib's `≤` on
  `String`); `"…".join` is `joinSep`; the `dedent`-ed f-string header is
  spelled out literally.
* `dependency.version_spec or "any"` uses Python truthiness: both `None` and
  the empty string fall back to `"any"`; this is `orAny` on `Option String`.
-/
import Mathlib

namespace Mermaid

/-- Code-point lexicographic strict order on character lists, mirroring how
Python compares strings. -/
def lexLt : List Char → List Char → Bool
  | [], [] => false
  | [], _ :: _ => true
  | _ :: _, [] => false
  | a :: as, b :: bs => if a < b then true else if b < a then false else lexLt as bs

/-- Boolean `≤` on strings: `a ≤ b` iff `¬ b < a` in code-point order. -/
def strLeB (a b : String) : Bool := !(lexLt b.data a.data)

/-- The ordering relation used for the deterministic emission sort. -/
def strLe (a b : String) : Prop := strLeB a b = true

instance : DecidableRel strLe := fun _ _ => inferInstanceAs (Decidable (_ = true))

/-- Python's `sorted` on a collection of strings. -/
def sortStrings (l : List String) : List String := l.insertionSort strLe

/-- Python's `sep.join(items)`. -/
def joinSep (sep : String) : List String → String
  | [] => ""
  | [x] => x
  | x :: y :: ys => x ++ sep ++ joinSep sep (y :: ys)

/-- Split a string at newline characters (like Python `str.split("\n")`),
used to state claims about the line structure of the output. -/
def linesAux : List Char → List (List Char)
  | [] => [[]]
  | c :: cs =>
    match linesAux cs with
    | [] => [[]]
    | g :: gs => if c = '\n' then [] :: g :: gs else (c :: g) :: gs

/-- The list of newline-separated lines of a string. -/
def strLines (s : String) : List String := (linesAux s.data).map List.asString

/-- `_RESERVED_IDS`: Mermaid keywords that cannot be used as node names
(mermaid.py lines 11–34). -/
def _RESERVED_IDS : List String :=
  ["C4Component", "C4Container", "C4Deployment", "C4Dynamic", "_blank", "_parent",
   "_self", "_top", "call", "class", "classDef", "click", "end", "flowchart",
   "flowchart-v2", "graph", "interpolate", "linkStyle", "style", "subgraph"]

/-- The `node_ids_map` dictionary: key/value pairs in insertion order. -/
abbrev IdMap := List (String × String)

/-- Python `dict.get`: first (and, by construction, only) binding of `key`. -/
def lookupId : IdMap → String → Option String
  | [], _ => none
  | (k, v) :: m, key => if k = key then some v else lookupId m key

/-- The keys currently bound in the map (what `new_id not in node_ids_map`
tests against). -/
def keysOf (m : IdMap) : List String := m.map Prod.fst

/-- `f"{key}_{number}"`. -/
def candidateId (key : String) (n : Nat) : String := key ++ "_" ++ Nat.repr n

/-- The `while True` probe of `mermaid_id`: starting at suffix `n`, return the
first suffix whose candidate is not a key of the map.  Structured with fuel so
that it is structurally recursive; `probeLoop_finds_least` proves the fuel
used by `mermaid_id` is never exhausted, so this coincides with the
unbounded Python loop. -/
def probeLoop (ks : List String) (key : String) : Nat → Nat → Nat
  | 0, n => n
  | fuel + 1, n => if candidateId key n ∈ ks then probeLoop ks key fuel (n + 1) else n

/-- `mermaid_id` (mermaid.py lines 48–65): memoized lookup, identity for
non-reserved keys, and suffix probing for reserved keys.  Returns the
identifier together with the updated `node_ids_map`. -/
def mermaid_id (m : IdMap) (key : String) : String × IdMap :=
  match lookupId m key with
  | some canonical_id => (canonical_id, m)
  | none =>
    if key ∈ _RESERVED_IDS then
      let new_id := candidateId key (probeLoop (keysOf m) key (m.length + 1) 0)
      (new_id, m ++ [(key, new_id)])
    else
      (key, m ++ [(key, key)])

/-- A package as seen by the renderer: per-package fields read by
`render_mermaid`.  Forward mode reads `version`; reverse mode reads
`installed_version` and `is_missing`. -/
structure Package where
  key : String
  project_name : String
  version : String
  installed_version : String
  is_missing : Bool
  deriving DecidableEq

/-- A forward-mode neighbor (a `ReqPackage` dependency). -/
structure Dep where
  key : String
  project_name : String
  version_spec : Option String
  is_missing : Bool
  deriving DecidableEq

/-- A reverse-mode neighbor (a reverse dependency; the code reads its `key`
and `req.version_spec`). -/
structure RevDep where
  key : String
  req_version_spec : Option String
  deriving DecidableEq

/-- The dependency graph handed to `render_mermaid`: its orientation flag
(the `isinstance(tree, ReversedPackageDAG)` test) together with the
`tree.items()` sequence of (package, neighbor-list) entries. -/
inductive PackageDAG where
  | forward (entries : List (Package × List Dep))
  | reversed (entries : List (Package × List RevDep))
  deriving DecidableEq

/-- The renderer's mutable state: the identifier map and the two
declaration sets. -/
structure RState where
  idMap : IdMap
  nodes : List String
  edges : List String
  deriving DecidableEq

/-- Python `set.add`: append the string unless it is already present. -/
def setAdd (l : List String) (s : String) : List String := if s ∈ l then l else l ++ [s]

/-- `spec or "any"`: Python truthiness makes both `None` and the empty
string fall back to `"any"`. -/
def orAny : Option String → String
  | none => "any"
  | some s => if s = "" then "any" else s

/-- Forward-mode package label `f"{package.project_name}\n{package.version}"`
(a literal backslash-n, not a newline). -/
def fwdLabel (p : Package) : String := p.project_name ++ "\\n" ++ p.version

/-- Reverse-mode package label: project name, then `"(missing)"` or the
installed version. -/
def revLabel (p : Package) : String :=
  p.project_name ++ "\\n" ++ (if p.is_missing then "(missing)" else p.installed_version)

/-- The node-declaration string `f'{id}["{label}"]'`. -/
def mkNode (id label : String) : String := id ++ "[\"" ++ label ++ "\"]"

/-- The missing-styled node-declaration string `f'{id}["{label}"]:::missing'`. -/
def mkMissingNode (id label : String) : String := mkNode id label ++ ":::missing"

/-- The labeled solid edge string `f'{a} -- "{label}" --> {b}'`. -/
def mkSolid (a label b : String) : String := a ++ " -- \"" ++ label ++ "\" --> " ++ b

/-- The unlabeled dashed edge string `f'{a} -.-> {b}'`. -/
def mkDashed (a b : String) : String := a ++ " -.-> " ++ b

/-- Loop body for one forward-mode dependency (mermaid.py lines 87–95). -/
def processFwdDep (package_key : String) (st : RState) (d : Dep) : RState :=
  let edge_label := orAny d.version_spec
  let r := mermaid_id st.idMap d.key
  if d.is_missing then
    { idMap := r.2,
      nodes := setAdd st.nodes (mkMissingNode r.1 (d.project_name ++ "\\n(missing)")),
      edges := setAdd st.edges (mkDashed package_key r.1) }
  else
    { idMap := r.2,
      nodes := st.nodes,
      edges := setAdd st.edges (mkSolid package_key edge_label r.1) }

/-- Loop body for one forward-mode entry (mermaid.py lines 83–95). -/
def processFwdEntry (st : RState) (e : Package × List Dep) : RState :=
  let r := mermaid_id st.idMap e.1.key
  let st1 : RState :=
    { idMap := r.2,
      nodes := setAdd st.nodes (mkNode r.1 (fwdLabel e.1)),
      edges := st.edges }
  e.2.foldl (processFwdDep r.1) st1

/-- Loop body for one reverse-mode dependent (mermaid.py lines 78–81). -/
def processRevDep (package_key : String) (st : RState) (d : RevDep) : RState :=
  let edge_label := orAny d.req_version_spec
  let r := mermaid_id st.idMap d.key
  { idMap := r.2,
    nodes := st.nodes,
    edges := setAdd st.edges (mkSolid package_key edge_label r.1) }

/-- Loop body for one reverse-mode entry (mermaid.py lines 72–81). -/
def processRevEntry (st : RState) (e : Package × List RevDep) : RState :=
  let r := mermaid_id st.idMap e.1.key
  let st1 : RState :=
    { idMap := r.2,
      nodes := setAdd st.nodes (mkNode r.1 (revLabel e.1)),
      edges := st.edges }
  e.2.foldl (processRevDep r.1) st1

/-- Fresh state at the start of one render call. -/
def initState : RState := ⟨[], [], []⟩

/-- The state after the single pass over the graph's entries. -/
def renderState : PackageDAG → RState
  | .forward es => es.foldl processFwdEntry initState
  | .reversed es => es.foldl processRevEntry initState

/-- `render_mermaid` (mermaid.py lines 37–111): walk the graph, then emit the
dedented header, the unconditional `classDef` line, and the sorted node and
edge declarations, each line prefixed by the four-space indent. -/
def render_mermaid (tree : PackageDAG) : String :=
  "flowchart TD\n" ++ "    " ++ "classDef missing stroke-dasharray: 5\n"
    ++ "    " ++ joinSep ("\n" ++ "    ") (sortStrings (renderState tree).nodes)
    ++ "\n" ++ "    " ++ joinSep ("\n" ++ "    ") (sortStrings (renderState tree).edges)
    ++ "\n"

/-! Derived notions used to state and prove properties about the renderer. -/

/-- The order-independent identifier assignment: identity for a non-reserved
key and first-candidate suffixing for a reserved one.  `mermaid_id` computes
this whenever no encountered key collides with a suffixed candidate. -/
def pureId (k : String) : String := if k ∈ _RESERVED_IDS then candidateId k 0 else k

/-- No key in `ks` textually extends a reserved word by an underscore, so
no key can collide with a suffixed candidate identifier. -/
def noCand (ks : List String) : Prop :=
  ∀ k ∈ ks, ∀ r ∈ _RESERVED_IDS, ∀ t : String, k ≠ r ++ "_" ++ t

/-- Decidable sufficient check for `noCand`: no key starts with
`reserved ++ "_"`. -/
def noCandB (ks : List String) : Bool :=
  ks.all fun k => _RESERVED_IDS.all fun r =>
    decide (k.data.take (r.data.length + 1) ≠ r.data ++ ['_'])

/-- Every package key the renderer can encounter in a forward graph. -/
def fwdKeys (es : List (Package × List Dep)) : List String :=
  es.flatMap fun e => e.1.key :: e.2.map Dep.key

/-- Every package key the renderer can encounter in a reverse graph. -/
def revKeys (es : List (Package × List RevDep)) : List String :=
  es.flatMap fun e => e.1.key :: e.2.map RevDep.key

/-- Every package key the renderer can encounter in a graph. -/
def dagKeys : PackageDAG → List String
  | .forward es => fwdKeys es
  | .reversed es => revKeys es

/-- Two graphs with the same orientation whose entry sequences are
permutations of each other (same entries, different iteration order). -/
def dagPerm : PackageDAG → PackageDAG → Prop
  | .forward a, .forward b => List.Perm a b
  | .reversed a, .reversed b => List.Perm a b
  | _, _ => False

/-- A declaration string tagged with the `missing` style class
(it ends in `":::missing"`). -/
def taggedMissing (s : String) : Prop := ∃ t : List Char, s.data = t ++ (":::missing").data

/-- Every value in the identifier map is either a non-reserved key mapped to
itself or a reserved key mapped to a suffixed candidate. -/
def MapVals (m : IdMap) : Prop :=
  ∀ p ∈ m, (p.2 = p.1 ∧ p.1 ∉ _RESERVED_IDS) ∨ (p.1 ∈ _RESERVED_IDS ∧ ∃ n, p.2 = candidateId p.1 n)

/-- Every binding of the identifier map is the order-independent assignment. -/
def MapPure (m : IdMap) : Prop := ∀ p ∈ m, p.2 = pureId p.1

/-- Structural invariant of the renderer state: no key is bound twice and the
two declaration lists are duplicate-free. -/
def StInv (st : RState) : Prop :=
  (keysOf st.idMap).Nodup ∧ MapVals st.idMap ∧ st.nodes.Nodup ∧ st.edges.Nodup

/-- One render step only extends the identifier map and the declaration
lists; nothing is ever removed or rebound. -/
def Ev (st st' : RState) : Prop :=
  (∃ ext, st'.idMap = st.idMap ++ ext) ∧ st.nodes ⊆ st'.nodes ∧ st.edges ⊆ st'.edges

/-- Node declarations contributed by one forward entry under the
order-independent identifier assignment. -/
def fwdEntryNodesP (e : Package × List Dep) : List String :=
  mkNode (pureId e.1.key) (fwdLabel e.1) ::
    e.2.filterMap fun d =>
      if d.is_missing then some (mkMissingNode (pureId d.key) (d.project_name ++ "\\n(missing)"))
      else none

/-- Edge declarations contributed by one forward entry under the
order-independent identifier assignment. -/
def fwdEntryEdgesP (e : Package × List Dep) : List String :=
  e.2.map fun d =>
    if d.is_missing then mkDashed (pureId e.1.key) (pureId d.key)
    else mkSolid (pureId e.1.key) (orAny d.version_spec) (pureId d.key)

/-- Node declarations contributed by one reverse entry under the
order-independent identifier assignment. -/
def revEntryNodesP (e : Package × List RevDep) : List String :=
  [mkNode (pureId e.1.key) (revLabel e.1)]

/-- Edge declarations contributed by one reverse entry under the
order-independent identifier assignment. -/
def revEntryEdgesP (e : Package × List RevDep) : List String :=
  e.2.map fun d => mkSolid (pureId e.1.key) (orAny d.req_version_spec) (pureId d.key)

/-- Decimal digit list of a natural number (reference implementation used to
prove `Nat.repr` injective). -/
def myDigits (n : Nat) : List Char :=
  if _ : n < 10 then [Nat.digitChar n]
  else myDigits (n / 10) ++ [Nat.digitChar (n % 10)]
  decreasing_by exact Nat.div_lt_self (by omega) (by omega)

/-- Numeric value of a decimal digit character. -/
def charDigit (c : Char) : Nat := c.toNat - 48

/-- Evaluate a digit list as a decimal numeral, starting from `a`. -/
def valFrom (a : Nat) (l : List Char) : Nat := l.foldl (fun x c => 10 * x + charDigit c) a

/-! ### The emission order coincides with the lexicographic order on strings -/

theorem lexLt_iff : ∀ (x y : List Char), lexLt x y = true ↔ x < y
  | [], [] => by
    constructor
    · intro h; simp [lexLt] at h
    · intro h; cases h
  | [], b :: bs => by
    exact iff_of_true (by simp [lexLt]) List.Lex.nil
  | a :: as, [] => by
    constructor
    · intro h; simp [lexLt] at h
    · intro h; cases h
  | a :: as, b :: bs => by
    simp only [lexLt]
    split_ifs with h1 h2
    · exact iff_of_true rfl (List.Lex.rel h1)
    · refine iff_of_false (by simp) ?_
      intro h
      cases h with
      | cons h => exact absurd h2 (lt_irrefl _)
      | rel h => exact absurd h h1
    · rw [lexLt_iff as bs]
      have hab : a = b := le_antisymm (not_lt.mp h2) (not_lt.mp h1)
      subst hab
      constructor
      · exact List.Lex.cons
      · intro h
        cases h with
        | cons h => exact h
        | rel h => exact absurd h h1

theorem lexLt_data_iff (a b : String) : lexLt a.data b.data = true ↔ a < b := by
  rw [lexLt_iff, String.lt_iff_toList_lt]
  exact Iff.rfl

theorem strLe_iff (a b : String) : strLe a b ↔ a ≤ b := by
  cases hb : lexLt b.data a.data
  · refine iff_of_true (by simp [strLe, strLeB, hb]) (not_lt.mp ?_)
    rw [← lexLt_data_iff, hb]
    simp
  · exact iff_of_false (by simp [strLe, strLeB, hb])
      (fun hle => absurd ((lexLt_data_iff b a).mp hb) (not_lt.mpr hle))

instance : IsTotal String strLe :=
  ⟨fun a b => by rw [strLe_iff, strLe_iff]; exact le_total a b⟩

instance : IsTrans String strLe :=
  ⟨fun a b c hab hbc => by
    rw [strLe_iff] at hab hbc ⊢
    exact le_trans hab hbc⟩

instance : IsAntisymm String strLe :=
  ⟨fun a b hab hba => by
    rw [strLe_iff] at hab hba
    exact le_antisymm hab hba⟩

theorem sortStrings_perm (l : List String) : List.Perm (sortStrings l) l :=
  List.perm_insertionSort strLe l

theorem sortStrings_sorted (l : List String) : List.Sorted strLe (sortStrings l) :=
  List.sorted_insertionSort strLe l

theorem sortStrings_sorted_le (l : List String) : List.Sorted (· ≤ ·) (sortStrings l) :=
  (sortStrings_sorted l).imp fun h => (strLe_iff _ _).mp h

theorem sortStrings_eq_of_perm {l₁ l₂ : List String} (h : List.Perm l₁ l₂) :
    sortStrings l₁ = sortStrings l₂ :=
  List.eq_of_perm_of_sorted
    ((sortStrings_perm l₁).trans (h.trans (sortStrings_perm l₂).symm))
    (sortStrings_sorted l₁) (sortStrings_sorted l₂)

/-! ### Python set and dict operations -/

theorem setAdd_mem {l : List String} {s x : String} : x ∈ setAdd l s ↔ x ∈ l ∨ x = s := by
  unfold setAdd
  split_ifs with h
  · constructor
    · exact Or.inl
    · rintro (hx | rfl)
      · exact hx
      · exact h
  · simp [List.mem_append]

theorem setAdd_nodup {l : List String} {s : String} (h : l.Nodup) : (setAdd l s).Nodup := by
  unfold setAdd
  split_ifs with hs
  · exact h
  · rw [List.nodup_append]
    refine ⟨h, List.nodup_singleton s, ?_⟩
    intro x hx hx'
    rw [List.mem_singleton] at hx'
    subst hx'
    exact hs hx

theorem setAdd_sub {l : List String} {s : String} : l ⊆ setAdd l s :=
  fun _ hx => setAdd_mem.mpr (Or.inl hx)

theorem mem_setAdd_self {l : List String} {s : String} : s ∈ setAdd l s :=
  setAdd_mem.mpr (Or.inr rfl)

theorem lookupId_eq_none : ∀ {m : IdMap} {k : String}, lookupId m k = none ↔ k ∉ keysOf m
  | [], _ => by simp [lookupId, keysOf]
  | (k', v') :: m, k => by
    simp only [lookupId, keysOf, List.map_cons, List.mem_cons]
    split_ifs with h
    · subst h
      simp
    · rw [lookupId_eq_none]
      simp [keysOf, Ne.symm h]

theorem lookupId_append_of_some : ∀ {m : IdMap} (m' : IdMap) {k v : String},
    lookupId m k = some v → lookupId (m ++ m') k = some v
  | [], _, _, _ => by simp [lookupId]
  | (k', v') :: m, m', k, v => by
    simp only [lookupId, List.cons_append]
    split_ifs with h
    · exact id
    · exact lookupId_append_of_some m'

theorem lookupId_append_of_none : ∀ {m : IdMap} (m' : IdMap) {k : String},
    lookupId m k = none → lookupId (m ++ m') k = lookupId m' k
  | [], _, _ => by simp [lookupId]
  | (k', v') :: m, m', k => by
    simp only [lookupId, List.cons_append]
    split_ifs with h
    · intro hc
      cases hc
    · exact lookupId_append_of_none m'

theorem lookupId_mem : ∀ {m : IdMap} {k v : String}, lookupId m k = some v → (k, v) ∈ m
  | [], _, _ => by simp [lookupId]
  | (k', v') :: m, k, v => by
    simp only [lookupId, List.mem_cons]
    split_ifs with h
    · intro hv
      cases hv
      subst h
      exact Or.inl rfl
    · intro hv
      exact Or.inr (lookupId_mem hv)

theorem lookupId_singleton {k v : String} : lookupId [(k, v)] k = some v := by
  simp [lookupId]

/-! ### The identifier sanitizer -/

theorem mermaid_id_of_some {m : IdMap} {key v : String} (h : lookupId m key = some v) :
    mermaid_id m key = (v, m) := by
  unfold mermaid_id
  rw [h]

theorem mermaid_id_extend (m : IdMap) (key : String) :
    ∃ ext, (mermaid_id m key).2 = m ++ ext := by
  unfold mermaid_id
  cases h : lookupId m key
  · split_ifs
    · exact ⟨_, rfl⟩
    · exact ⟨_, rfl⟩
  · exact ⟨[], (List.append_nil m).symm⟩

theorem mermaid_id_lookup (m : IdMap) (key : String) :
    lookupId (mermaid_id m key).2 key = some (mermaid_id m key).1 := by
  unfold mermaid_id
  cases h : lookupId m key
  · split_ifs
    · exact (lookupId_append_of_none _ h).trans lookupId_singleton
    · exact (lookupId_append_of_none _ h).trans lookupId_singleton
  · exact h

theorem keysOf_append (m m' : IdMap) : keysOf (m ++ m') = keysOf m ++ keysOf m' :=
  List.map_append _ m m'

theorem mermaid_id_keys (m : IdMap) (key : String) :
    keysOf (mermaid_id m key).2 = keysOf m ∨ keysOf (mermaid_id m key).2 = keysOf m ++ [key] := by
  unfold mermaid_id
  cases h : lookupId m key
  · split_ifs
    · exact Or.inr (keysOf_append m _)
    · exact Or.inr (keysOf_append m _)
  · exact Or.inl rfl

theorem mermaid_id_nodupKeys {m : IdMap} (key : String) (h : (keysOf m).Nodup) :
    (keysOf (mermaid_id m key).2).Nodup := by
  unfold mermaid_id
  cases hl : lookupId m key
  · have hk : key ∉ keysOf m := lookupId_eq_none.mp hl
    split_ifs
    · rw [keysOf_append, List.nodup_append]
      exact ⟨h, List.nodup_singleton _, fun x hx hx' => by
        rw [keysOf, List.map_singleton, List.mem_singleton] at hx'
        subst hx'
        exact hk hx⟩
    · rw [keysOf_append, List.nodup_append]
      exact ⟨h, List.nodup_singleton _, fun x hx hx' => by
        rw [keysOf, List.map_singleton, List.mem_singleton] at hx'
        subst hx'
        exact hk hx⟩
  · exact h

theorem take_of_underscore_ext {s r t : String} (h : s = r ++ "_" ++ t) :
    s.data.take (r.data.length + 1) = r.data ++ ['_'] := by
  subst h
  rw [String.data_append, String.data_append]
  have hlen : (r.data ++ ['_']).length = r.data.length + 1 := by simp
  calc (r.data ++ "_".data ++ t.data).take (r.data.length + 1)
      = ((r.data ++ ['_']) ++ t.data).take ((r.data ++ ['_']).length + 0) := by rw [hlen]
    _ = (r.data ++ ['_']) ++ t.data.take 0 := List.take_append 0
    _ = r.data ++ ['_'] := by simp

theorem reserved_no_candidate {r : String} (hr : r ∈ _RESERVED_IDS) (n : Nat) :
    candidateId r n ∉ _RESERVED_IDS := by
  intro hmem
  have hch : ∀ s ∈ _RESERVED_IDS, ∀ r' ∈ _RESERVED_IDS,
      s.data.take (r'.data.length + 1) ≠ r'.data ++ ['_'] := by decide
  exact hch _ hmem r hr (take_of_underscore_ext rfl)

theorem mermaid_id_mapVals {m : IdMap} (key : String) (h : MapVals m) :
    MapVals (mermaid_id m key).2 := by
  unfold mermaid_id
  cases hl : lookupId m key
  · split_ifs with hres
    · intro p hp
      rw [List.mem_append, List.mem_singleton] at hp
      rcases hp with hp | hp
      · exact h p hp
      · subst hp
        exact Or.inr ⟨hres, _, rfl⟩
    · intro p hp
      rw [List.mem_append, List.mem_singleton] at hp
      rcases hp with hp | hp
      · exact h p hp
      · subst hp
        exact Or.inl ⟨rfl, hres⟩
  · exact h

theorem mapVals_not_reserved {m : IdMap} {k v : String} (h : MapVals m) (hm : (k, v) ∈ m) :
    v ∉ _RESERVED_IDS := by
  rcases h _ hm with ⟨hv, hk⟩ | ⟨hk, n, hv⟩
  · simp only at hv
    rw [hv]
    exact hk
  · simp only at hv
    rw [hv]
    exact reserved_no_candidate hk n

theorem mermaid_id_fst_not_reserved {m : IdMap} (key : String) (h : MapVals m) :
    (mermaid_id m key).1 ∉ _RESERVED_IDS :=
  mapVals_not_reserved (mermaid_id_mapVals key h) (lookupId_mem (mermaid_id_lookup m key))

/-! ### Monotonicity of one render pass -/

theorem ev_refl (st : RState) : Ev st st :=
  ⟨⟨[], (List.append_nil _).symm⟩, fun _ h => h, fun _ h => h⟩

theorem ev_trans {a b c : RState} (h1 : Ev a b) (h2 : Ev b c) : Ev a c := by
  obtain ⟨⟨e1, he1⟩, hn1, hd1⟩ := h1
  obtain ⟨⟨e2, he2⟩, hn2, hd2⟩ := h2
  exact ⟨⟨e1 ++ e2, by rw [he2, he1, List.append_assoc]⟩,
    fun x h => hn2 (hn1 h), fun x h => hd2 (hd1 h)⟩

theorem ev_processFwdDep (pid : String) (st : RState) (d : Dep) :
    Ev st (processFwdDep pid st d) := by
  unfold processFwdDep
  obtain ⟨ext, hext⟩ := mermaid_id_extend st.idMap d.key
  split_ifs with h
  · exact ⟨⟨ext, hext⟩, setAdd_sub, setAdd_sub⟩
  · exact ⟨⟨ext, hext⟩, fun _ h => h, setAdd_sub⟩

theorem ev_processRevDep (pid : String) (st : RState) (d : RevDep) :
    Ev st (processRevDep pid st d) := by
  unfold processRevDep
  obtain ⟨ext, hext⟩ := mermaid_id_extend st.idMap d.key
  exact ⟨⟨ext, hext⟩, fun _ h => h, setAdd_sub⟩

theorem ev_foldl {α : Type} {f : RState → α → RState} (hf : ∀ st e, Ev st (f st e)) :
    ∀ (l : List α) (st : RState), Ev st (l.foldl f st)
  | [], st => ev_refl st
  | e :: l, st => ev_trans (hf st e) (ev_foldl hf l (f st e))

theorem ev_processFwdEntry (st : RState) (e : Package × List Dep) :
    Ev st (processFwdEntry st e) := by
  unfold processFwdEntry
  obtain ⟨ext, hext⟩ := mermaid_id_extend st.idMap e.1.key
  have h1 : Ev st ⟨(mermaid_id st.idMap e.1.key).2,
      setAdd st.nodes (mkNode (mermaid_id st.idMap e.1.key).1 (fwdLabel e.1)), st.edges⟩ :=
    ⟨⟨ext, hext⟩, setAdd_sub, fun _ h => h⟩
  exact ev_trans h1 (ev_foldl (ev_processFwdDep _) e.2 _)

theorem ev_processRevEntry (st : RState) (e : Package × List RevDep) :
    Ev st (processRevEntry st e) := by
  unfold processRevEntry
  obtain ⟨ext, hext⟩ := mermaid_id_extend st.idMap e.1.key
  have h1 : Ev st ⟨(mermaid_id st.idMap e.1.key).2,
      setAdd st.nodes (mkNode (mermaid_id st.idMap e.1.key).1 (revLabel e.1)), st.edges⟩ :=
    ⟨⟨ext, hext⟩, setAdd_sub, fun _ h => h⟩
  exact ev_trans h1 (ev_foldl (ev_processRevDep _) e.2 _)

/-- A `some` answer of the identifier map is stable under evolution: once a
key is assigned an identifier it keeps it for the rest of the render call. -/
theorem ev_lookup_stable {st st' : RState} (h : Ev st st') {k v : String}
    (hl : lookupId st.idMap k = some v) : lookupId st'.idMap k = some v := by
  obtain ⟨⟨ext, hext⟩, -, -⟩ := h
  rw [hext]
  exact lookupId_append_of_some ext hl

/-! ### Preservation of the structural invariant -/

theorem stinv_init : StInv initState := by
  refine ⟨List.nodup_nil, ?_, List.nodup_nil, List.nodup_nil⟩
  intro p hp
  cases hp

theorem stinv_processFwdDep (pid : String) (st : RState) (d : Dep) (h : StInv st) :
    StInv (processFwdDep pid st d) := by
  obtain ⟨hk, hv, hn, he⟩ := h
  unfold processFwdDep
  split_ifs with hm
  · exact ⟨mermaid_id_nodupKeys _ hk, mermaid_id_mapVals _ hv, setAdd_nodup hn, setAdd_nodup he⟩
  · exact ⟨mermaid_id_nodupKeys _ hk, mermaid_id_mapVals _ hv, hn, setAdd_nodup he⟩

theorem stinv_processRevDep (pid : String) (st : RState) (d : RevDep) (h : StInv st) :
    StInv (processRevDep pid st d) := by
  obtain ⟨hk, hv, hn, he⟩ := h
  exact ⟨mermaid_id_nodupKeys _ hk, mermaid_id_mapVals _ hv, hn, setAdd_nodup he⟩

theorem stinv_foldl {α : Type} {f : RState → α → RState}
    (hf : ∀ st e, StInv st → StInv (f st e)) :
    ∀ (l : List α) (st : RState), StInv st → StInv (l.foldl f st)
  | [], _, h => h
  | e :: l, st, h => stinv_foldl hf l (f st e) (hf st e h)

theorem stinv_processFwdEntry (st : RState) (e : Package × List Dep) (h : StInv st) :
    StInv (processFwdEntry st e) := by
  obtain ⟨hk, hv, hn, he⟩ := h
  unfold processFwdEntry
  exact stinv_foldl (stinv_processFwdDep _) e.2 _
    ⟨mermaid_id_nodupKeys _ hk, mermaid_id_mapVals _ hv, setAdd_nodup hn, he⟩

theorem stinv_processRevEntry (st : RState) (e : Package × List RevDep) (h : StInv st) :
    StInv (processRevEntry st e) := by
  obtain ⟨hk, hv, hn, he⟩ := h
  unfold processRevEntry
  exact stinv_foldl (stinv_processRevDep _) e.2 _
    ⟨mermaid_id_nodupKeys _ hk, mermaid_id_mapVals _ hv, setAdd_nodup hn, he⟩

theorem stinv_renderState (g : PackageDAG) : StInv (renderState g) := by
  cases g with
  | forward es => exact stinv_foldl stinv_processFwdEntry es initState stinv_init
  | reversed es => exact stinv_foldl stinv_processRevEntry es initState stinv_init

/-! ### Unfolding equations for the loop bodies -/

theorem processFwdDep_idMap (pid : String) (st : RState) (d : Dep) :
    (processFwdDep pid st d).idMap = (mermaid_id st.idMap d.key).2 := by
  unfold processFwdDep
  split_ifs <;> rfl

theorem processFwdDep_missing (pid : String) (st : RState) (d : Dep)
    (h : d.is_missing = true) :
    processFwdDep pid st d =
      ⟨(mermaid_id st.idMap d.key).2,
       setAdd st.nodes
         (mkMissingNode (mermaid_id st.idMap d.key).1 (d.project_name ++ "\\n(missing)")),
       setAdd st.edges (mkDashed pid (mermaid_id st.idMap d.key).1)⟩ := by
  unfold processFwdDep
  rw [if_pos h]

theorem processFwdDep_not_missing (pid : String) (st : RState) (d : Dep)
    (h : d.is_missing = false) :
    processFwdDep pid st d =
      ⟨(mermaid_id st.idMap d.key).2, st.nodes,
       setAdd st.edges
         (mkSolid pid (orAny d.version_spec) (mermaid_id st.idMap d.key).1)⟩ := by
  unfold processFwdDep
  rw [if_neg (by rw [h]; exact Bool.false_ne_true)]

theorem processRevDep_eq (pid : String) (st : RState) (d : RevDep) :
    processRevDep pid st d =
      ⟨(mermaid_id st.idMap d.key).2, st.nodes,
       setAdd st.edges
         (mkSolid pid (orAny d.req_version_spec) (mermaid_id st.idMap d.key).1)⟩ := rfl

theorem processFwdEntry_eq (st : RState) (e : Package × List Dep) :
    processFwdEntry st e =
      e.2.foldl (processFwdDep (mermaid_id st.idMap e.1.key).1)
        ⟨(mermaid_id st.idMap e.1.key).2,
         setAdd st.nodes (mkNode (mermaid_id st.idMap e.1.key).1 (fwdLabel e.1)),
         st.edges⟩ := rfl

theorem processRevEntry_eq (st : RState) (e : Package × List RevDep) :
    processRevEntry st e =
      e.2.foldl (processRevDep (mermaid_id st.idMap e.1.key).1)
        ⟨(mermaid_id st.idMap e.1.key).2,
         setAdd st.nodes (mkNode (mermaid_id st.idMap e.1.key).1 (revLabel e.1)),
         st.edges⟩ := rfl

/-! ### Every entry's declarations reach the final state -/

theorem fwdDeps_member {pid : String} {ds : List Dep} {d : Dep} (hd : d ∈ ds) (st : RState) :
    ∃ did, lookupId ((ds.foldl (processFwdDep pid) st).idMap) d.key = some did ∧
      (d.is_missing = true →
        mkMissingNode did (d.project_name ++ "\\n(missing)")
            ∈ (ds.foldl (processFwdDep pid) st).nodes ∧
          mkDashed pid did ∈ (ds.foldl (processFwdDep pid) st).edges) ∧
      (d.is_missing = false →
        mkSolid pid (orAny d.version_spec) did ∈ (ds.foldl (processFwdDep pid) st).edges) := by
  obtain ⟨l1, l2, rfl⟩ := List.append_of_mem hd
  rw [List.foldl_append, List.foldl_cons]
  have hev : Ev (processFwdDep pid (l1.foldl (processFwdDep pid) st) d)
      (l2.foldl (processFwdDep pid) (processFwdDep pid (l1.foldl (processFwdDep pid) st) d)) :=
    ev_foldl (ev_processFwdDep pid) l2 _
  refine ⟨(mermaid_id (l1.foldl (processFwdDep pid) st).idMap d.key).1, ?_, ?_, ?_⟩
  · apply ev_lookup_stable hev
    rw [processFwdDep_idMap]
    exact mermaid_id_lookup _ _
  · intro hm
    rw [processFwdDep_missing _ _ _ hm] at hev ⊢
    exact ⟨hev.2.1 mem_setAdd_self, hev.2.2 mem_setAdd_self⟩
  · intro hm
    rw [processFwdDep_not_missing _ _ _ hm] at hev ⊢
    exact hev.2.2 mem_setAdd_self

theorem revDeps_member {pid : String} {ds : List RevDep} {d : RevDep} (hd : d ∈ ds)
    (st : RState) :
    ∃ did, lookupId ((ds.foldl (processRevDep pid) st).idMap) d.key = some did ∧
      mkSolid pid (orAny d.req_version_spec) did ∈ (ds.foldl (processRevDep pid) st).edges := by
  obtain ⟨l1, l2, rfl⟩ := List.append_of_mem hd
  rw [List.foldl_append, List.foldl_cons]
  have hev : Ev (processRevDep pid (l1.foldl (processRevDep pid) st) d)
      (l2.foldl (processRevDep pid) (processRevDep pid (l1.foldl (processRevDep pid) st) d)) :=
    ev_foldl (ev_processRevDep pid) l2 _
  refine ⟨(mermaid_id (l1.foldl (processRevDep pid) st).idMap d.key).1, ?_, ?_⟩
  · apply ev_lookup_stable hev
    rw [processRevDep_eq]
    exact mermaid_id_lookup _ _
  · rw [processRevDep_eq] at hev ⊢
    exact hev.2.2 mem_setAdd_self

theorem fwdEntry_member {es : List (Package × List Dep)} {e : Package × List Dep}
    (he : e ∈ es) :
    ∃ pid, lookupId (renderState (.forward es)).idMap e.1.key = some pid ∧
      mkNode pid (fwdLabel e.1) ∈ (renderState (.forward es)).nodes ∧
      ∀ d ∈ e.2, ∃ did, lookupId (renderState (.forward es)).idMap d.key = some did ∧
        (d.is_missing = true →
          mkMissingNode did (d.project_name ++ "\\n(missing)")
              ∈ (renderState (.forward es)).nodes ∧
            mkDashed pid did ∈ (renderState (.forward es)).edges) ∧
        (d.is_missing = false →
          mkSolid pid (orAny d.version_spec) did ∈ (renderState (.forward es)).edges) := by
  obtain ⟨l1, l2, rfl⟩ := List.append_of_mem he
  show ∃ pid, _
  have hrs : renderState (.forward (l1 ++ e :: l2)) =
      l2.foldl processFwdEntry (processFwdEntry (l1.foldl processFwdEntry initState) e) := by
    show (l1 ++ e :: l2).foldl processFwdEntry initState = _
    rw [List.foldl_append, List.foldl_cons]
  rw [hrs]
  have hev2 : Ev (processFwdEntry (l1.foldl processFwdEntry initState) e)
      (l2.foldl processFwdEntry (processFwdEntry (l1.foldl processFwdEntry initState) e)) :=
    ev_foldl ev_processFwdEntry l2 _
  rw [processFwdEntry_eq] at hev2 ⊢
  have hevDeps : Ev ⟨(mermaid_id (l1.foldl processFwdEntry initState).idMap e.1.key).2,
      setAdd (l1.foldl processFwdEntry initState).nodes
        (mkNode (mermaid_id (l1.foldl processFwdEntry initState).idMap e.1.key).1 (fwdLabel e.1)),
      (l1.foldl processFwdEntry initState).edges⟩
      (e.2.foldl (processFwdDep (mermaid_id (l1.foldl processFwdEntry initState).idMap e.1.key).1)
        ⟨(mermaid_id (l1.foldl processFwdEntry initState).idMap e.1.key).2,
         setAdd (l1.foldl processFwdEntry initState).nodes
           (mkNode (mermaid_id (l1.foldl processFwdEntry initState).idMap e.1.key).1
             (fwdLabel e.1)),
         (l1.foldl processFwdEntry initState).edges⟩) :=
    ev_foldl (ev_processFwdDep _) e.2 _
  refine ⟨(mermaid_id (l1.foldl processFwdEntry initState).idMap e.1.key).1, ?_, ?_, ?_⟩
  · apply ev_lookup_stable hev2
    apply ev_lookup_stable hevDeps
    exact mermaid_id_lookup _ _
  · exact hev2.2.1 (hevDeps.2.1 mem_setAdd_self)
  · intro d hd
    obtain ⟨did, hlk, hmiss, hnotmiss⟩ := fwdDeps_member hd
      ⟨(mermaid_id (l1.foldl processFwdEntry initState).idMap e.1.key).2,
       setAdd (l1.foldl processFwdEntry initState).nodes
         (mkNode (mermaid_id (l1.foldl processFwdEntry initState).idMap e.1.key).1 (fwdLabel e.1)),
       (l1.foldl processFwdEntry initState).edges⟩
    refine ⟨did, ev_lookup_stable hev2 hlk, ?_, ?_⟩
    · intro hm
      obtain ⟨h1, h2⟩ := hmiss hm
      exact ⟨hev2.2.1 h1, hev2.2.2 h2⟩
    · intro hm
      exact hev2.2.2 (hnotmiss hm)

theorem revEntry_member {es : List (Package × List RevDep)} {e : Package × List RevDep}
    (he : e ∈ es) :
    ∃ pid, lookupId (renderState (.reversed es)).idMap e.1.key = some pid ∧
      mkNode pid (revLabel e.1) ∈ (renderState (.reversed es)).nodes ∧
      ∀ d ∈ e.2, ∃ did, lookupId (renderState (.reversed es)).idMap d.key = some did ∧
        mkSolid pid (orAny d.req_version_spec) did ∈ (renderState (.reversed es)).edges := by
  obtain ⟨l1, l2, rfl⟩ := List.append_of_mem he
  have hrs : renderState (.reversed (l1 ++ e :: l2)) =
      l2.foldl processRevEntry (processRevEntry (l1.foldl processRevEntry initState) e) := by
    show (l1 ++ e :: l2).foldl processRevEntry initState = _
    rw [List.foldl_append, List.foldl_cons]
  rw [hrs]
  have hev2 : Ev (processRevEntry (l1.foldl processRevEntry initState) e)
      (l2.foldl processRevEntry (processRevEntry (l1.foldl processRevEntry initState) e)) :=
    ev_foldl ev_processRevEntry l2 _
  rw [processRevEntry_eq] at hev2 ⊢
  have hevDeps : Ev ⟨(mermaid_id (l1.foldl processRevEntry initState).idMap e.1.key).2,
      setAdd (l1.foldl processRevEntry initState).nodes
        (mkNode (mermaid_id (l1.foldl processRevEntry initState).idMap e.1.key).1 (revLabel e.1)),
      (l1.foldl processRevEntry initState).edges⟩
      (e.2.foldl (processRevDep (mermaid_id (l1.foldl processRevEntry initState).idMap e.1.key).1)
        ⟨(mermaid_id (l1.foldl processRevEntry initState).idMap e.1.key).2,
         setAdd (l1.foldl processRevEntry initState).nodes
           (mkNode (mermaid_id (l1.foldl processRevEntry initState).idMap e.1.key).1
             (revLabel e.1)),
         (l1.foldl processRevEntry initState).edges⟩) :=
    ev_foldl (ev_processRevDep _) e.2 _
  refine ⟨(mermaid_id (l1.foldl processRevEntry initState).idMap e.1.key).1, ?_, ?_, ?_⟩
  · apply ev_lookup_stable hev2
    apply ev_lookup_stable hevDeps
    exact mermaid_id_lookup _ _
  · exact hev2.2.1 (hevDeps.2.1 mem_setAdd_self)
  · intro d hd
    obtain ⟨did, hlk, hedge⟩ := revDeps_member hd
      ⟨(mermaid_id (l1.foldl processRevEntry initState).idMap e.1.key).2,
       setAdd (l1.foldl processRevEntry initState).nodes
         (mkNode (mermaid_id (l1.foldl processRevEntry initState).idMap e.1.key).1 (revLabel e.1)),
       (l1.foldl processRevEntry initState).edges⟩
    exact ⟨did, ev_lookup_stable hev2 hlk, hev2.2.2 hedge⟩

/-! ### Shape of the declarations produced in reverse mode -/

theorem str_ext {a b : String} (h : a.data = b.data) : a = b :=
  String.toList_inj.mp h

theorem revDeps_nodes_eq (pid : String) :
    ∀ (ds : List RevDep) (st : RState), (ds.foldl (processRevDep pid) st).nodes = st.nodes
  | [], _ => rfl
  | d :: ds, st => by
    rw [List.foldl_cons, revDeps_nodes_eq pid ds, processRevDep_eq]

theorem revDeps_edges_shape (pid : String) :
    ∀ (ds : List RevDep) (st : RState) (x : String),
      x ∈ (ds.foldl (processRevDep pid) st).edges →
      x ∈ st.edges ∨ ∃ a l b, x = mkSolid a l b
  | [], _, _, hx => Or.inl hx
  | d :: ds, st, x, hx => by
    rw [List.foldl_cons] at hx
    rcases revDeps_edges_shape pid ds _ x hx with h | h
    · rw [processRevDep_eq] at h
      rcases setAdd_mem.mp h with h' | h'
      · exact Or.inl h'
      · exact Or.inr ⟨_, _, _, h'⟩
    · exact Or.inr h

theorem revEntries_nodes_shape :
    ∀ (es : List (Package × List RevDep)) (st : RState) (x : String),
      x ∈ (es.foldl processRevEntry st).nodes → x ∈ st.nodes ∨ ∃ a l, x = mkNode a l
  | [], _, _, hx => Or.inl hx
  | e :: es, st, x, hx => by
    rw [List.foldl_cons] at hx
    rcases revEntries_nodes_shape es _ x hx with h | h
    · rw [processRevEntry_eq, revDeps_nodes_eq] at h
      rcases setAdd_mem.mp h with h' | h'
      · exact Or.inl h'
      · exact Or.inr ⟨_, _, h'⟩
    · exact Or.inr h

theorem revEntries_edges_shape :
    ∀ (es : List (Package × List RevDep)) (st : RState) (x : String),
      x ∈ (es.foldl processRevEntry st).edges → x ∈ st.edges ∨ ∃ a l b, x = mkSolid a l b
  | [], _, _, hx => Or.inl hx
  | e :: es, st, x, hx => by
    rw [List.foldl_cons] at hx
    rcases revEntries_edges_shape es _ x hx with h | h
    · rw [processRevEntry_eq] at h
      rcases revDeps_edges_shape _ _ _ _ h with h' | h'
      · exact Or.inl h'
      · exact Or.inr h'
    · exact Or.inr h

theorem mkNode_not_tagged (a l : String) : ¬ taggedMissing (mkNode a l) := by
  rintro ⟨t, ht⟩
  have h1 : (mkNode a l).data = (a ++ "[\"" ++ l).data ++ ['"', ']'] := by
    show (a ++ "[\"" ++ l ++ "\"]").data = _
    rw [String.data_append]
  have h2 : (mkNode a l).data.getLast? = some ']' := by
    rw [h1, List.getLast?_append]
    rfl
  have h3 : (mkNode a l).data.getLast? = some 'g' := by
    rw [ht, List.getLast?_append]
    rfl
  rw [h2] at h3
  cases h3

/-! ### Structure of the emitted text -/

theorem joinSep_indent :
    ∀ (xs : List String) (x : String),
      "    " ++ joinSep ("\n" ++ "    ") (x :: xs)
        = joinSep "\n" ((x :: xs).map (fun s => "    " ++ s))
  | [], _ => rfl
  | y :: ys, x => by
    show "    " ++ (x ++ ("\n" ++ "    ") ++ joinSep ("\n" ++ "    ") (y :: ys))
        = ("    " ++ x) ++ "\n" ++ joinSep "\n" ((y :: ys).map (fun s => "    " ++ s))
    rw [← joinSep_indent ys y]
    apply str_ext
    simp [String.data_append, List.append_assoc]

theorem joinSep_append (sep : String) :
    ∀ (l1 l2 : List String), l1 ≠ [] → l2 ≠ [] →
      joinSep sep (l1 ++ l2) = joinSep sep l1 ++ sep ++ joinSep sep l2
  | [], _, h, _ => absurd rfl h
  | [x], l2, _, h2 => by
    obtain ⟨y, ys, rfl⟩ := List.exists_cons_of_ne_nil h2
    rfl
  | x :: y :: ys, l2, _, h2 => by
    have ih := joinSep_append sep (y :: ys) l2 (by simp) h2
    show x ++ sep ++ joinSep sep (y :: ys ++ l2)
        = (x ++ sep ++ joinSep sep (y :: ys)) ++ sep ++ joinSep sep l2
    rw [ih]
    apply str_ext
    simp [String.data_append, List.append_assoc]

theorem sortStrings_ne_nil {l : List String} (h : l ≠ []) : sortStrings l ≠ [] := by
  intro hc
  exact h (((sortStrings_perm l).symm.trans (hc ▸ List.Perm.refl _)).eq_nil)

theorem render_mermaid_lines (g : PackageDAG)
    (hn : (renderState g).nodes ≠ []) (he : (renderState g).edges ≠ []) :
    render_mermaid g = joinSep "\n"
      (["flowchart TD", "    classDef missing stroke-dasharray: 5"]
        ++ (sortStrings (renderState g).nodes).map (fun s => "    " ++ s)
        ++ (sortStrings (renderState g).edges).map (fun s => "    " ++ s)) ++ "\n" := by
  obtain ⟨n0, ns, hns⟩ := List.exists_cons_of_ne_nil (sortStrings_ne_nil hn)
  obtain ⟨e0, es, hes⟩ := List.exists_cons_of_ne_nil (sortStrings_ne_nil he)
  unfold render_mermaid
  rw [hns, hes]
  have hsplit : joinSep "\n"
      (["flowchart TD", "    classDef missing stroke-dasharray: 5"]
        ++ (n0 :: ns).map (fun s => "    " ++ s) ++ (e0 :: es).map (fun s => "    " ++ s))
      = "flowchart TD" ++ "\n" ++ ("    classDef missing stroke-dasharray: 5" ++ "\n"
          ++ (joinSep "\n" ((n0 :: ns).map (fun s => "    " ++ s)) ++ "\n"
            ++ joinSep "\n" ((e0 :: es).map (fun s => "    " ++ s)))) := by
    rw [List.append_assoc]
    have h1 : (["flowchart TD", "    classDef missing stroke-dasharray: 5"] :
        List String) = ["flowchart TD"] ++ ["    classDef missing stroke-dasharray: 5"] := rfl
    rw [h1, List.append_assoc]
    rw [joinSep_append "\n" ["flowchart TD"] _ (by simp) (by simp)]
    rw [joinSep_append "\n" ["    classDef missing stroke-dasharray: 5"] _ (by simp) (by simp)]
    rw [joinSep_append "\n" ((n0 :: ns).map (fun s => "    " ++ s)) _ (by simp) (by simp)]
    apply str_ext
    simp [String.data_append, List.append_assoc, joinSep]
  rw [hsplit, ← joinSep_indent ns n0, ← joinSep_indent es e0]
  apply str_ext
  have hlit1 : ("flowchart TD\n").data = ("flowchart TD").data ++ ("\n").data := rfl
  have hlit2 : ("classDef missing stroke-dasharray: 5\n").data
      = ("classDef missing stroke-dasharray: 5").data ++ ("\n").data := rfl
  have hlit3 : ("    classDef missing stroke-dasharray: 5").data
      = ("    ").data ++ ("classDef missing stroke-dasharray: 5").data := rfl
  simp [String.data_append, List.append_assoc, hlit1, hlit2, hlit3, hns, hes]

/-! ### Order-independent identifier assignment in the absence of
candidate-shaped keys -/

theorem noCandB_sound {ks : List String} (h : noCandB ks = true) : noCand ks := by
  intro k hk r hr t het
  rw [noCandB, List.all_eq_true] at h
  have h2 := h k hk
  rw [List.all_eq_true] at h2
  have h3 := h2 r hr
  rw [decide_eq_true_iff] at h3
  exact h3 (take_of_underscore_ext het)

theorem mem_keysOf {m : IdMap} {k v : String} (h : (k, v) ∈ m) : k ∈ keysOf m := by
  rw [keysOf, List.mem_map]
  exact ⟨(k, v), h, rfl⟩

theorem mermaid_id_pure_inv {m : IdMap} {key : String} {ks : List String}
    (hsub : keysOf m ⊆ ks) (hnc : noCand ks) (hkey : key ∈ ks) (hpure : MapPure m) :
    (mermaid_id m key).1 = pureId key ∧ keysOf (mermaid_id m key).2 ⊆ ks ∧
      MapPure (mermaid_id m key).2 := by
  unfold mermaid_id
  cases hl : lookupId m key with
  | some v =>
    exact ⟨hpure _ (lookupId_mem hl), hsub, hpure⟩
  | none =>
    split_ifs with hres
    · have hfree : candidateId key 0 ∉ keysOf m := by
        intro hc
        exact hnc _ (hsub hc) key hres (Nat.repr 0) rfl
      have hprobe : probeLoop (keysOf m) key (m.length + 1) 0 = 0 := by
        simp only [probeLoop, if_neg hfree]
      refine ⟨?_, ?_, ?_⟩
      · simp only [hprobe, pureId, if_pos hres]
      · rw [keysOf_append]
        intro x hx
        rcases List.mem_append.mp hx with hx | hx
        · exact hsub hx
        · rw [keysOf, List.map_singleton, List.mem_singleton] at hx
          subst hx
          exact hkey
      · intro p hp
        rcases List.mem_append.mp hp with hp | hp
        · exact hpure _ hp
        · rw [List.mem_singleton] at hp
          subst hp
          simp only [hprobe, pureId, if_pos hres]
    · refine ⟨?_, ?_, ?_⟩
      · simp only [pureId, if_neg hres]
      · rw [keysOf_append]
        intro x hx
        rcases List.mem_append.mp hx with hx | hx
        · exact hsub hx
        · rw [keysOf, List.map_singleton, List.mem_singleton] at hx
          subst hx
          exact hkey
      · intro p hp
        rcases List.mem_append.mp hp with hp | hp
        · exact hpure _ hp
        · rw [List.mem_singleton] at hp
          subst hp
          simp only [pureId, if_neg hres]

theorem pureId_inj {ks : List String} (hnc : noCand ks) {k1 k2 : String}
    (h1 : k1 ∈ ks) (h2 : k2 ∈ ks) (h : pureId k1 = pureId k2) : k1 = k2 := by
  unfold pureId at h
  split_ifs at h with r1 r2 r2
  · have hr0 : (Nat.repr 0) = "0" := rfl
    have hu : ("_" : String).data = ['_'] := rfl
    have h0 : ("0" : String).data = ['0'] := rfl
    have hd := congrArg String.data h
    rw [candidateId, candidateId, hr0, String.data_append, String.data_append,
      String.data_append, String.data_append, hu, h0, List.append_assoc,
      List.append_assoc] at hd
    exact str_ext (List.append_cancel_right hd)
  · exact absurd h.symm (hnc k2 h2 k1 r1 (Nat.repr 0))
  · exact absurd h (hnc k1 h1 k2 r2 (Nat.repr 0))
  · exact h

theorem mapPure_lookup_inj {m : IdMap} {ks : List String} (hnc : noCand ks)
    (hsub : keysOf m ⊆ ks) (hpure : MapPure m) {k1 k2 v : String}
    (hl1 : lookupId m k1 = some v) (hl2 : lookupId m k2 = some v) : k1 = k2 := by
  have hm1 := lookupId_mem hl1
  have hm2 := lookupId_mem hl2
  have hv1 : v = pureId k1 := hpure _ hm1
  have hv2 : v = pureId k2 := hpure _ hm2
  exact pureId_inj hnc (hsub (mem_keysOf hm1)) (hsub (mem_keysOf hm2)) (hv1 ▸ hv2)

theorem fwdDeps_pure {ks : List String} (hnc : noCand ks) (pid : String) :
    ∀ (ds : List Dep) (st : RState), (∀ d ∈ ds, d.key ∈ ks) →
      keysOf st.idMap ⊆ ks → MapPure st.idMap →
      keysOf ((ds.foldl (processFwdDep pid) st).idMap) ⊆ ks ∧
      MapPure ((ds.foldl (processFwdDep pid) st).idMap) ∧
      (∀ x, x ∈ (ds.foldl (processFwdDep pid) st).nodes ↔ x ∈ st.nodes ∨
        x ∈ ds.filterMap (fun d => if d.is_missing then
          some (mkMissingNode (pureId d.key) (d.project_name ++ "\\n(missing)")) else none)) ∧
      (∀ x, x ∈ (ds.foldl (processFwdDep pid) st).edges ↔ x ∈ st.edges ∨
        x ∈ ds.map (fun d => if d.is_missing then mkDashed pid (pureId d.key)
          else mkSolid pid (orAny d.version_spec) (pureId d.key)))
  | [], st, _, hsub, hpure => ⟨hsub, hpure, by simp, by simp⟩
  | d :: ds, st, hks, hsub, hpure => by
    have hd : d.key ∈ ks := hks d (List.mem_cons_self d ds)
    obtain ⟨hid, hsub1, hpure1⟩ := mermaid_id_pure_inv hsub hnc hd hpure
    rw [List.foldl_cons]
    cases hm : d.is_missing with
    | false =>
      rw [processFwdDep_not_missing pid st d hm]
      have ih := fwdDeps_pure hnc pid ds
        ⟨(mermaid_id st.idMap d.key).2, st.nodes,
         setAdd st.edges (mkSolid pid (orAny d.version_spec) (mermaid_id st.idMap d.key).1)⟩
        (fun d' hd' => hks d' (List.mem_cons_of_mem d hd')) hsub1 hpure1
      refine ⟨ih.1, ih.2.1, ?_, ?_⟩
      · intro x
        rw [ih.2.2.1 x]
        simp [hm]
      · intro x
        rw [ih.2.2.2 x]
        simp only [setAdd_mem, hid, List.map_cons, hm, if_neg Bool.false_ne_true,
          List.mem_cons]
        tauto
    | true =>
      rw [processFwdDep_missing pid st d hm]
      have ih := fwdDeps_pure hnc pid ds
        ⟨(mermaid_id st.idMap d.key).2,
         setAdd st.nodes
           (mkMissingNode (mermaid_id st.idMap d.key).1 (d.project_name ++ "\\n(missing)")),
         setAdd st.edges (mkDashed pid (mermaid_id st.idMap d.key).1)⟩
        (fun d' hd' => hks d' (List.mem_cons_of_mem d hd')) hsub1 hpure1
      refine ⟨ih.1, ih.2.1, ?_, ?_⟩
      · intro x
        rw [ih.2.2.1 x]
        simp only [setAdd_mem, hid, List.filterMap_cons, hm, if_pos, List.mem_cons]
        tauto
      · intro x
        rw [ih.2.2.2 x]
        simp only [setAdd_mem, hid, List.map_cons, hm, if_pos, List.mem_cons]
        tauto

theorem revDeps_pure {ks : List String} (hnc : noCand ks) (pid : String) :
    ∀ (ds : List RevDep) (st : RState), (∀ d ∈ ds, d.key ∈ ks) →
      keysOf st.idMap ⊆ ks → MapPure st.idMap →
      keysOf ((ds.foldl (processRevDep pid) st).idMap) ⊆ ks ∧
      MapPure ((ds.foldl (processRevDep pid) st).idMap) ∧
      (∀ x, x ∈ (ds.foldl (processRevDep pid) st).edges ↔ x ∈ st.edges ∨
        x ∈ ds.map (fun d => mkSolid pid (orAny d.req_version_spec) (pureId d.key)))
  | [], st, _, hsub, hpure => ⟨hsub, hpure, by simp⟩
  | d :: ds, st, hks, hsub, hpure => by
    have hd : d.key ∈ ks := hks d (List.mem_cons_self d ds)
    obtain ⟨hid, hsub1, hpure1⟩ := mermaid_id_pure_inv hsub hnc hd hpure
    rw [List.foldl_cons, processRevDep_eq]
    have ih := revDeps_pure hnc pid ds
      ⟨(mermaid_id st.idMap d.key).2, st.nodes,
       setAdd st.edges (mkSolid pid (orAny d.req_version_spec) (mermaid_id st.idMap d.key).1)⟩
      (fun d' hd' => hks d' (List.mem_cons_of_mem d hd')) hsub1 hpure1
    refine ⟨ih.1, ih.2.1, ?_⟩
    intro x
    rw [ih.2.2 x]
    simp only [setAdd_mem, hid, List.map_cons, List.mem_cons]
    tauto

theorem fwdFold_pure {ks : List String} (hnc : noCand ks) :
    ∀ (es : List (Package × List Dep)) (st : RState),
      (∀ e ∈ es, e.1.key ∈ ks ∧ ∀ d ∈ e.2, d.key ∈ ks) →
      keysOf st.idMap ⊆ ks → MapPure st.idMap →
      keysOf ((es.foldl processFwdEntry st).idMap) ⊆ ks ∧
      MapPure ((es.foldl processFwdEntry st).idMap) ∧
      (∀ x, x ∈ (es.foldl processFwdEntry st).nodes ↔ x ∈ st.nodes ∨
        x ∈ es.flatMap fwdEntryNodesP) ∧
      (∀ x, x ∈ (es.foldl processFwdEntry st).edges ↔ x ∈ st.edges ∨
        x ∈ es.flatMap fwdEntryEdgesP)
  | [], st, _, hsub, hpure => ⟨hsub, hpure, by simp, by simp⟩
  | e :: es, st, hks, hsub, hpure => by
    have hk : e.1.key ∈ ks := (hks e (List.mem_cons_self e es)).1
    obtain ⟨hid, hsub1, hpure1⟩ := mermaid_id_pure_inv hsub hnc hk hpure
    rw [List.foldl_cons, processFwdEntry_eq]
    have hdeps := fwdDeps_pure hnc (mermaid_id st.idMap e.1.key).1 e.2
      ⟨(mermaid_id st.idMap e.1.key).2,
       setAdd st.nodes (mkNode (mermaid_id st.idMap e.1.key).1 (fwdLabel e.1)),
       st.edges⟩
      (fun d hd => (hks e (List.mem_cons_self e es)).2 d hd) hsub1 hpure1
    have ih := fwdFold_pure hnc es _
      (fun e' he' => hks e' (List.mem_cons_of_mem e he')) hdeps.1 hdeps.2.1
    refine ⟨ih.1, ih.2.1, ?_, ?_⟩
    · intro x
      rw [ih.2.2.1 x, hdeps.2.2.1 x]
      simp only [setAdd_mem, hid, List.flatMap_cons, List.mem_append, fwdEntryNodesP,
        List.mem_cons]
      tauto
    · intro x
      rw [ih.2.2.2 x, hdeps.2.2.2 x]
      simp only [hid, List.flatMap_cons, List.mem_append, fwdEntryEdgesP]
      tauto

theorem revFold_pure {ks : List String} (hnc : noCand ks) :
    ∀ (es : List (Package × List RevDep)) (st : RState),
      (∀ e ∈ es, e.1.key ∈ ks ∧ ∀ d ∈ e.2, d.key ∈ ks) →
      keysOf st.idMap ⊆ ks → MapPure st.idMap →
      keysOf ((es.foldl processRevEntry st).idMap) ⊆ ks ∧
      MapPure ((es.foldl processRevEntry st).idMap) ∧
      (∀ x, x ∈ (es.foldl processRevEntry st).nodes ↔ x ∈ st.nodes ∨
        x ∈ es.flatMap revEntryNodesP) ∧
      (∀ x, x ∈ (es.foldl processRevEntry st).edges ↔ x ∈ st.edges ∨
        x ∈ es.flatMap revEntryEdgesP)
  | [], st, _, hsub, hpure => ⟨hsub, hpure, by simp, by simp⟩
  | e :: es, st, hks, hsub, hpure => by
    have hk : e.1.key ∈ ks := (hks e (List.mem_cons_self e es)).1
    obtain ⟨hid, hsub1, hpure1⟩ := mermaid_id_pure_inv hsub hnc hk hpure
    rw [List.foldl_cons, processRevEntry_eq]
    have hdeps := revDeps_pure hnc (mermaid_id st.idMap e.1.key).1 e.2
      ⟨(mermaid_id st.idMap e.1.key).2,
       setAdd st.nodes (mkNode (mermaid_id st.idMap e.1.key).1 (revLabel e.1)),
       st.edges⟩
      (fun d hd => (hks e (List.mem_cons_self e es)).2 d hd) hsub1 hpure1
    have ih := revFold_pure hnc es _
      (fun e' he' => hks e' (List.mem_cons_of_mem e he')) hdeps.1 hdeps.2.1
    refine ⟨ih.1, ih.2.1, ?_, ?_⟩
    · intro x
      rw [ih.2.2.1 x]
      have hn := revDeps_nodes_eq (mermaid_id st.idMap e.1.key).1 e.2
        ⟨(mermaid_id st.idMap e.1.key).2,
         setAdd st.nodes (mkNode (mermaid_id st.idMap e.1.key).1 (revLabel e.1)),
         st.edges⟩
      rw [hn]
      simp only [setAdd_mem, hid, List.flatMap_cons, List.mem_append, revEntryNodesP,
        List.mem_singleton, List.mem_cons]
      tauto
    · intro x
      rw [ih.2.2.2 x, hdeps.2.2 x]
      simp only [hid, List.flatMap_cons, List.mem_append, revEntryEdgesP]
      tauto

theorem fwdKeys_mem {es : List (Package × List Dep)} :
    ∀ e ∈ es, e.1.key ∈ fwdKeys es ∧ ∀ d ∈ e.2, d.key ∈ fwdKeys es := by
  intro e he
  constructor
  · rw [fwdKeys, List.mem_flatMap]
    exact ⟨e, he, List.mem_cons_self _ _⟩
  · intro d hd
    rw [fwdKeys, List.mem_flatMap]
    exact ⟨e, he, List.mem_cons_of_mem _ (List.mem_map_of_mem Dep.key hd)⟩

theorem revKeys_mem {es : List (Package × List RevDep)} :
    ∀ e ∈ es, e.1.key ∈ revKeys es ∧ ∀ d ∈ e.2, d.key ∈ revKeys es := by
  intro e he
  constructor
  · rw [revKeys, List.mem_flatMap]
    exact ⟨e, he, List.mem_cons_self _ _⟩
  · intro d hd
    rw [revKeys, List.mem_flatMap]
    exact ⟨e, he, List.mem_cons_of_mem _ (List.mem_map_of_mem RevDep.key hd)⟩

theorem renderState_pure_forward {es : List (Package × List Dep)}
    (hnc : noCand (fwdKeys es)) :
    keysOf (renderState (.forward es)).idMap ⊆ fwdKeys es ∧
    MapPure (renderState (.forward es)).idMap ∧
    (∀ x, x ∈ (renderState (.forward es)).nodes ↔ x ∈ es.flatMap fwdEntryNodesP) ∧
    (∀ x, x ∈ (renderState (.forward es)).edges ↔ x ∈ es.flatMap fwdEntryEdgesP) := by
  have h := fwdFold_pure hnc es initState fwdKeys_mem
    (by intro x hx; cases hx) (by intro p hp; cases hp)
  refine ⟨h.1, h.2.1, fun x => ?_, fun x => ?_⟩
  · rw [show (renderState (.forward es)) = es.foldl processFwdEntry initState from rfl,
      h.2.2.1 x]
    simp [initState]
  · rw [show (renderState (.forward es)) = es.foldl processFwdEntry initState from rfl,
      h.2.2.2 x]
    simp [initState]

theorem renderState_pure_reversed {es : List (Package × List RevDep)}
    (hnc : noCand (revKeys es)) :
    keysOf (renderState (.reversed es)).idMap ⊆ revKeys es ∧
    MapPure (renderState (.reversed es)).idMap ∧
    (∀ x, x ∈ (renderState (.reversed es)).nodes ↔ x ∈ es.flatMap revEntryNodesP) ∧
    (∀ x, x ∈ (renderState (.reversed es)).edges ↔ x ∈ es.flatMap revEntryEdgesP) := by
  have h := revFold_pure hnc es initState revKeys_mem
    (by intro x hx; cases hx) (by intro p hp; cases hp)
  refine ⟨h.1, h.2.1, fun x => ?_, fun x => ?_⟩
  · rw [show (renderState (.reversed es)) = es.foldl processRevEntry initState from rfl,
      h.2.2.1 x]
    simp [initState]
  · rw [show (renderState (.reversed es)) = es.foldl processRevEntry initState from rfl,
      h.2.2.2 x]
    simp [initState]

theorem noCand_of_perm {g g' : PackageDAG} (hp : dagPerm g g') (hnc : noCand (dagKeys g)) :
    noCand (dagKeys g') := by
  intro k hk
  apply hnc
  cases g with
  | forward es =>
    cases g' with
    | forward es' =>
      rw [dagKeys, fwdKeys, List.mem_flatMap] at hk ⊢
      obtain ⟨e, he, hke⟩ := hk
      exact ⟨e, (hp.mem_iff).mpr he, hke⟩
    | reversed es' => exact hp.elim
  | reversed es =>
    cases g' with
    | forward es' => exact hp.elim
    | reversed es' =>
      rw [dagKeys, revKeys, List.mem_flatMap] at hk ⊢
      obtain ⟨e, he, hke⟩ := hk
      exact ⟨e, (hp.mem_iff).mpr he, hke⟩

/-! ### Claim C1 -/

/-- Claim C1, counterexample: the identifier map is not injective.  With the
keys `"class"` (reserved) and `"class_0"` encountered in this order, the
probe for `"class"` checks its candidate `"class_0"` against the map's keys
(not its values), so both distinct keys end up with identifier `"class_0"`. -/
theorem mermaid_id_not_injective_on_candidate_keys :
    lookupId (renderState (.forward [(⟨"class", "C", "1", "1", false⟩, []),
      (⟨"class_0", "D", "1", "1", false⟩, [])])).idMap "class" = some "class_0" ∧
    lookupId (renderState (.forward [(⟨"class", "C", "1", "1", false⟩, []),
      (⟨"class_0", "D", "1", "1", false⟩, [])])).idMap "class_0" = some "class_0" ∧
    "class" ≠ "class_0" := by
  refine ⟨by decide, by decide, by decide⟩

/-- Claim C1 (amended): the identifier map built during one `render_mermaid`
call is injective over all keys passed to `mermaid_id`, provided no
encountered key textually extends a reserved word by an underscore (so no key
can equal a suffixed candidate such as `"class_0"`).  Without that proviso
the cited case `"class"` / `"class_0"` makes two distinct keys share one
identifier. -/
theorem mermaid_id_injective_without_candidate_keys (g : PackageDAG)
    (hnc : noCand (dagKeys g)) (k1 k2 v : String)
    (h1 : lookupId (renderState g).idMap k1 = some v)
    (h2 : lookupId (renderState g).idMap k2 = some v) : k1 = k2 := by
  cases g with
  | forward es =>
    have hch := renderState_pure_forward hnc
    exact mapPure_lookup_inj hnc hch.1 hch.2.1 h1 h2
  | reversed es =>
    have hch := renderState_pure_reversed hnc
    exact mapPure_lookup_inj hnc hch.1 hch.2.1 h1 h2

/-- Witness for claim C1's amended theorem at a concrete two-package graph
containing the reserved keys `"class"` and `"graph"`. -/
theorem mermaid_id_injective_without_candidate_keys_witness :
    noCand (dagKeys (.forward [(⟨"class", "C", "1", "1", false⟩, []),
      (⟨"graph", "G", "2", "2", false⟩, [])])) ∧
    lookupId (renderState (.forward [(⟨"class", "C", "1", "1", false⟩, []),
      (⟨"graph", "G", "2", "2", false⟩, [])])).idMap "class" = some "class_0" ∧
    "class" = "class" :=
  have hnc : noCand (dagKeys (.forward [(⟨"class", "C", "1", "1", false⟩, []),
      (⟨"graph", "G", "2", "2", false⟩, [])])) := noCandB_sound (by decide)
  ⟨hnc, by decide,
    mermaid_id_injective_without_candidate_keys _ hnc "class" "class" "class_0"
      (by decide) (by decide)⟩

/-! ### Claim C2 -/

/-- Claim C2, counterexample: output is not independent of the iteration
order.  The same two entries (keys `"class"` and `"class_0"`) rendered in the
two orders give different bytes, because the suffix chosen for the reserved
key `"class"` depends on which keys are already in the map. -/
theorem render_mermaid_order_dependent_with_candidate_keys :
    dagPerm (.forward [(⟨"class", "C", "1", "1", false⟩, []),
        (⟨"class_0", "D", "1", "1", false⟩, [])])
      (.forward [(⟨"class_0", "D", "1", "1", false⟩, []),
        (⟨"class", "C", "1", "1", false⟩, [])]) ∧
    render_mermaid (.forward [(⟨"class", "C", "1", "1", false⟩, []),
        (⟨"class_0", "D", "1", "1", false⟩, [])]) ≠
      render_mermaid (.forward [(⟨"class_0", "D", "1", "1", false⟩, []),
        (⟨"class", "C", "1", "1", false⟩, [])]) :=
  ⟨List.Perm.swap _ _ _, by decide⟩

/-- Claim C2 (amended): two runs of `render_mermaid` over the same entries in
different iteration orders produce byte-identical output, provided no
encountered key textually extends a reserved word by an underscore (then
every key's identifier is order-independent, and the sorted emission erases
the iteration order).  Without that proviso the counterexample above applies. -/
theorem render_mermaid_order_independent (g g' : PackageDAG) (hp : dagPerm g g')
    (hnc : noCand (dagKeys g)) : render_mermaid g = render_mermaid g' := by
  have hnc' := noCand_of_perm hp hnc
  have hsi := stinv_renderState g
  have hsi' := stinv_renderState g'
  cases g with
  | forward es =>
    cases g' with
    | forward es' =>
      have hpp : List.Perm es es' := hp
      have hch := renderState_pure_forward hnc
      have hch' := renderState_pure_forward hnc'
      have hnperm : List.Perm (renderState (.forward es)).nodes
          (renderState (.forward es')).nodes := by
        rw [List.perm_ext_iff_of_nodup hsi.2.2.1 hsi'.2.2.1]
        intro x
        rw [hch.2.2.1 x, hch'.2.2.1 x, List.mem_flatMap, List.mem_flatMap]
        constructor
        · rintro ⟨e, he, hxe⟩
          exact ⟨e, hpp.mem_iff.mp he, hxe⟩
        · rintro ⟨e, he, hxe⟩
          exact ⟨e, hpp.mem_iff.mpr he, hxe⟩
      have heperm : List.Perm (renderState (.forward es)).edges
          (renderState (.forward es')).edges := by
        rw [List.perm_ext_iff_of_nodup hsi.2.2.2 hsi'.2.2.2]
        intro x
        rw [hch.2.2.2 x, hch'.2.2.2 x, List.mem_flatMap, List.mem_flatMap]
        constructor
        · rintro ⟨e, he, hxe⟩
          exact ⟨e, hpp.mem_iff.mp he, hxe⟩
        · rintro ⟨e, he, hxe⟩
          exact ⟨e, hpp.mem_iff.mpr he, hxe⟩
      unfold render_mermaid
      rw [sortStrings_eq_of_perm hnperm, sortStrings_eq_of_perm heperm]
    | reversed es' => exact hp.elim
  | reversed es =>
    cases g' with
    | forward es' => exact hp.elim
    | reversed es' =>
      have hpp : List.Perm es es' := hp
      have hch := renderState_pure_reversed hnc
      have hch' := renderState_pure_reversed hnc'
      have hnperm : List.Perm (renderState (.reversed es)).nodes
          (renderState (.reversed es')).nodes := by
        rw [List.perm_ext_iff_of_nodup hsi.2.2.1 hsi'.2.2.1]
        intro x
        rw [hch.2.2.1 x, hch'.2.2.1 x, List.mem_flatMap, List.mem_flatMap]
        constructor
        · rintro ⟨e, he, hxe⟩
          exact ⟨e, hpp.mem_iff.mp he, hxe⟩
        · rintro ⟨e, he, hxe⟩
          exact ⟨e, hpp.mem_iff.mpr he, hxe⟩
      have heperm : List.Perm (renderState (.reversed es)).edges
          (renderState (.reversed es')).edges := by
        rw [List.perm_ext_iff_of_nodup hsi.2.2.2 hsi'.2.2.2]
        intro x
        rw [hch.2.2.2 x, hch'.2.2.2 x, List.mem_flatMap, List.mem_flatMap]
        constructor
        · rintro ⟨e, he, hxe⟩
          exact ⟨e, hpp.mem_iff.mp he, hxe⟩
        · rintro ⟨e, he, hxe⟩
          exact ⟨e, hpp.mem_iff.mpr he, hxe⟩
      unfold render_mermaid
      rw [sortStrings_eq_of_perm hnperm, sortStrings_eq_of_perm heperm]

/-- Witness for claim C2's amended theorem: two orderings of a concrete
two-entry graph with no reserved-suffixed key render identically. -/
theorem render_mermaid_order_independent_witness :
    dagPerm (.forward [(⟨"a", "A", "1", "1", false⟩, []),
        (⟨"class", "C", "2", "2", false⟩, [])])
      (.forward [(⟨"class", "C", "2", "2", false⟩, []),
        (⟨"a", "A", "1", "1", false⟩, [])]) ∧
    noCand (dagKeys (.forward [(⟨"a", "A", "1", "1", false⟩, []),
        (⟨"class", "C", "2", "2", false⟩, [])])) ∧
    render_mermaid (.forward [(⟨"a", "A", "1", "1", false⟩, []),
        (⟨"class", "C", "2", "2", false⟩, [])]) =
      render_mermaid (.forward [(⟨"class", "C", "2", "2", false⟩, []),
        (⟨"a", "A", "1", "1", false⟩, [])]) :=
  have hnc : noCand (dagKeys (.forward [(⟨"a", "A", "1", "1", false⟩, []),
      (⟨"class", "C", "2", "2", false⟩, [])])) := noCandB_sound (by decide)
  ⟨List.Perm.swap _ _ _, hnc,
    render_mermaid_order_independent _ _ (List.Perm.swap _ _ _) hnc⟩

/-! ### Claim C3 -/

/-- Claim C3, counterexample: a non-missing forward dependency that is never
a top-level entry gets an identifier (it is passed through `mermaid_id`) but
no node declaration: in the one-entry graph `a → b`, the node list holds
exactly the declaration for `a`, and no string starting with `b`'s
identifier. -/
theorem referenced_only_dep_gets_no_node_decl :
    lookupId (renderState (.forward [(⟨"a", "A", "1.0", "1.0", false⟩,
      [⟨"b", "B", none, false⟩])])).idMap "b" = some "b" ∧
    (renderState (.forward [(⟨"a", "A", "1.0", "1.0", false⟩,
      [⟨"b", "B", none, false⟩])])).nodes = ["a[\"A\\n1.0\"]"] ∧
    (∀ x ∈ (renderState (.forward [(⟨"a", "A", "1.0", "1.0", false⟩,
      [⟨"b", "B", none, false⟩])])).nodes, x.data.take 1 ≠ ("b").data) := by
  refine ⟨by decide, by decide, by decide⟩

/-- Claim C3 (amended): a node declaration is emitted exactly for the keys
that reach `nodes.add`: every top-level entry (in both modes) and every
missing forward-mode dependency.  A neighbor that is only referenced (a
non-missing forward dependency, or any reverse-mode dependent) receives a
memoized identifier but no node declaration. -/
theorem node_decls_for_entries_and_missing_deps :
    (∀ (es : List (Package × List Dep)) (p : Package) (deps : List Dep),
      (p, deps) ∈ es →
      ∃ pid, lookupId (renderState (.forward es)).idMap p.key = some pid ∧
        mkNode pid (fwdLabel p) ∈ (renderState (.forward es)).nodes) ∧
    (∀ (es : List (Package × List Dep)) (p : Package) (deps : List Dep) (d : Dep),
      (p, deps) ∈ es → d ∈ deps → d.is_missing = true →
      ∃ did, lookupId (renderState (.forward es)).idMap d.key = some did ∧
        mkMissingNode did (d.project_name ++ "\\n(missing)")
          ∈ (renderState (.forward es)).nodes) ∧
    (∀ (es : List (Package × List RevDep)) (p : Package) (deps : List RevDep),
      (p, deps) ∈ es →
      ∃ pid, lookupId (renderState (.reversed es)).idMap p.key = some pid ∧
        mkNode pid (revLabel p) ∈ (renderState (.reversed es)).nodes) := by
  refine ⟨?_, ?_, ?_⟩
  · intro es p deps he
    obtain ⟨pid, hl, hn, -⟩ := fwdEntry_member he
    exact ⟨pid, hl, hn⟩
  · intro es p deps d he hd hm
    obtain ⟨pid, -, -, hdeps⟩ := fwdEntry_member he
    obtain ⟨did, hl, hmiss, -⟩ := hdeps d hd
    exact ⟨did, hl, (hmiss hm).1⟩
  · intro es p deps he
    obtain ⟨pid, hl, hn, -⟩ := revEntry_member he
    exact ⟨pid, hl, hn⟩

/-- Witness for claim C3's amended theorem: node declarations for a forward
entry, a missing dependency, and a reverse entry in concrete graphs. -/
theorem node_decls_for_entries_and_missing_deps_witness :
    ((⟨"a", "A", "1.0", "1.0", false⟩ : Package), [(⟨"b", "B", none, true⟩ : Dep)]) ∈
      [((⟨"a", "A", "1.0", "1.0", false⟩ : Package), [(⟨"b", "B", none, true⟩ : Dep)])] ∧
    (∃ pid, lookupId (renderState (.forward [(⟨"a", "A", "1.0", "1.0", false⟩,
        [⟨"b", "B", none, true⟩])])).idMap "a" = some pid ∧
      mkNode pid (fwdLabel ⟨"a", "A", "1.0", "1.0", false⟩)
        ∈ (renderState (.forward [(⟨"a", "A", "1.0", "1.0", false⟩,
            [⟨"b", "B", none, true⟩])])).nodes) ∧
    (∃ did, lookupId (renderState (.forward [(⟨"a", "A", "1.0", "1.0", false⟩,
        [⟨"b", "B", none, true⟩])])).idMap "b" = some did ∧
      mkMissingNode did ("B" ++ "\\n(missing)")
        ∈ (renderState (.forward [(⟨"a", "A", "1.0", "1.0", false⟩,
            [⟨"b", "B", none, true⟩])])).nodes) := by
  refine ⟨by decide, ?_, ?_⟩
  · exact node_decls_for_entries_and_missing_deps.1
      [((⟨"a", "A", "1.0", "1.0", false⟩ : Package), [(⟨"b", "B", none, true⟩ : Dep)])]
      ⟨"a", "A", "1.0", "1.0", false⟩ [⟨"b", "B", none, true⟩] (by decide)
  · exact node_decls_for_entries_and_missing_deps.2.1
      [((⟨"a", "A", "1.0", "1.0", false⟩ : Package), [(⟨"b", "B", none, true⟩ : Dep)])]
      ⟨"a", "A", "1.0", "1.0", false⟩ [⟨"b", "B", none, true⟩] ⟨"b", "B", none, true⟩
      (by decide) (by decide) (by decide)

/-! ### Claim C4 -/

/-- Claim C4, counterexample: for a graph whose edge set is empty the output
is not exactly header, classDef and the sorted declarations — the emitter
still writes the four-space indent before the empty edge block, leaving an
indent-only line. -/
theorem render_structure_fails_on_empty_edges :
    render_mermaid (.forward [(⟨"a", "A", "1.0", "1.0", false⟩, [])]) ≠ joinSep "\n"
      (["flowchart TD", "    classDef missing stroke-dasharray: 5"]
        ++ (sortStrings (renderState (.forward
              [(⟨"a", "A", "1.0", "1.0", false⟩, [])])).nodes).map (fun s => "    " ++ s)
        ++ (sortStrings (renderState (.forward
              [(⟨"a", "A", "1.0", "1.0", false⟩, [])])).edges).map (fun s => "    " ++ s))
      ++ "\n" := by
  decide

/-- Claim C4 (amended): whenever both collected sets are nonempty the output
is exactly the `flowchart TD` header line, the unconditional `classDef` line,
then all collected node declarations sorted lexicographically, then all
collected edge declarations sorted lexicographically, one per line, each
declaration line indented by four spaces; when a collected set is empty an
indent-only line takes its block's place (see the counterexample). -/
theorem render_structure_with_nodes_and_edges (g : PackageDAG)
    (hn : (renderState g).nodes ≠ []) (he : (renderState g).edges ≠ []) :
    List.Perm (sortStrings (renderState g).nodes) (renderState g).nodes ∧
    List.Sorted (· ≤ ·) (sortStrings (renderState g).nodes) ∧
    List.Perm (sortStrings (renderState g).edges) (renderState g).edges ∧
    List.Sorted (· ≤ ·) (sortStrings (renderState g).edges) ∧
    render_mermaid g = joinSep "\n"
      (["flowchart TD", "    classDef missing stroke-dasharray: 5"]
        ++ (sortStrings (renderState g).nodes).map (fun s => "    " ++ s)
        ++ (sortStrings (renderState g).edges).map (fun s => "    " ++ s)) ++ "\n" :=
  ⟨sortStrings_perm _, sortStrings_sorted_le _, sortStrings_perm _, sortStrings_sorted_le _,
   render_mermaid_lines g hn he⟩

/-- Witness for claim C4's amended theorem at a concrete one-edge graph. -/
theorem render_structure_with_nodes_and_edges_witness :
    (renderState (.forward [(⟨"a", "A", "1.0", "1.0", false⟩,
      [⟨"b", "B", none, false⟩])])).nodes ≠ [] ∧
    render_mermaid (.forward [(⟨"a", "A", "1.0", "1.0", false⟩,
      [⟨"b", "B", none, false⟩])]) = joinSep "\n"
      (["flowchart TD", "    classDef missing stroke-dasharray: 5"]
        ++ (sortStrings (renderState (.forward [(⟨"a", "A", "1.0", "1.0", false⟩,
              [⟨"b", "B", none, false⟩])])).nodes).map (fun s => "    " ++ s)
        ++ (sortStrings (renderState (.forward [(⟨"a", "A", "1.0", "1.0", false⟩,
              [⟨"b", "B", none, false⟩])])).edges).map (fun s => "    " ++ s)) ++ "\n" :=
  ⟨by decide,
   (render_structure_with_nodes_and_edges _ (by decide) (by decide)).2.2.2.2⟩

/-! ### Claim C5 -/

/-- Claim C5 (confirmed): a forward-mode dependency flagged missing yields a
`:::missing`-styled node declaration and an unlabeled dashed edge from its
parent, and the branch that processes a missing dependency only ever adds
those two strings — for any parent identifier, any state, and in particular
any value of the dependency's version specifier, no labeled edge is
produced (the last conjunct is an equation on the loop body itself). -/
theorem missing_dep_styled_dashed_unlabeled (es : List (Package × List Dep))
    (p : Package) (deps : List Dep) (d : Dep) (he : (p, deps) ∈ es) (hd : d ∈ deps)
    (hm : d.is_missing = true) :
    ∃ pid did, lookupId (renderState (.forward es)).idMap p.key = some pid ∧
      lookupId (renderState (.forward es)).idMap d.key = some did ∧
      mkMissingNode did (d.project_name ++ "\\n(missing)")
        ∈ (renderState (.forward es)).nodes ∧
      mkDashed pid did ∈ (renderState (.forward es)).edges ∧
      (∀ (pid' : String) (st : RState),
        (processFwdDep pid' st d).nodes =
          setAdd st.nodes (mkMissingNode (mermaid_id st.idMap d.key).1
            (d.project_name ++ "\\n(missing)")) ∧
        (processFwdDep pid' st d).edges =
          setAdd st.edges (mkDashed pid' (mermaid_id st.idMap d.key).1)) := by
  obtain ⟨pid, hlp, hn, hdeps⟩ := fwdEntry_member he
  obtain ⟨did, hld, hmiss, -⟩ := hdeps d hd
  obtain ⟨h1, h2⟩ := hmiss hm
  refine ⟨pid, did, hlp, hld, h1, h2, ?_⟩
  intro pid' st
  rw [processFwdDep_missing pid' st d hm]
  exact ⟨rfl, rfl⟩

/-- Witness for claim C5 at a concrete graph whose missing dependency even
carries a version specifier. -/
theorem missing_dep_styled_dashed_unlabeled_witness :
    ((⟨"a", "A", "1.0", "1.0", false⟩ : Package), [(⟨"b", "B", some ">=2", true⟩ : Dep)]) ∈
      [((⟨"a", "A", "1.0", "1.0", false⟩ : Package), [(⟨"b", "B", some ">=2", true⟩ : Dep)])] ∧
    (⟨"b", "B", some ">=2", true⟩ : Dep).is_missing = true ∧
    (∃ pid did, lookupId (renderState (.forward [(⟨"a", "A", "1.0", "1.0", false⟩,
        [⟨"b", "B", some ">=2", true⟩])])).idMap "a" = some pid ∧
      lookupId (renderState (.forward [(⟨"a", "A", "1.0", "1.0", false⟩,
        [⟨"b", "B", some ">=2", true⟩])])).idMap "b" = some did ∧
      mkMissingNode did ("B" ++ "\\n(missing)")
        ∈ (renderState (.forward [(⟨"a", "A", "1.0", "1.0", false⟩,
            [⟨"b", "B", some ">=2", true⟩])])).nodes ∧
      mkDashed pid did ∈ (renderState (.forward [(⟨"a", "A", "1.0", "1.0", false⟩,
        [⟨"b", "B", some ">=2", true⟩])])).edges ∧
      (∀ (pid' : String) (st : RState),
        (processFwdDep pid' st (⟨"b", "B", some ">=2", true⟩ : Dep)).nodes =
          setAdd st.nodes (mkMissingNode (mermaid_id st.idMap "b").1 ("B" ++ "\\n(missing)")) ∧
        (processFwdDep pid' st (⟨"b", "B", some ">=2", true⟩ : Dep)).edges =
          setAdd st.edges (mkDashed pid' (mermaid_id st.idMap "b").1))) := by
  refine ⟨by decide, by decide, ?_⟩
  exact missing_dep_styled_dashed_unlabeled
    [((⟨"a", "A", "1.0", "1.0", false⟩ : Package), [(⟨"b", "B", some ">=2", true⟩ : Dep)])]
    ⟨"a", "A", "1.0", "1.0", false⟩ [⟨"b", "B", some ">=2", true⟩] ⟨"b", "B", some ">=2", true⟩
    (by decide) (by decide) (by decide)

/-! ### Claim C6 -/

/-- Claim C6 (confirmed): in both modes, an edge whose neighbor's
version-constraint specifier is absent or the empty string (Python
truthiness: `spec or "any"`) is rendered with the literal label `"any"`. -/
theorem unconstrained_edges_render_any :
    (∀ (es : List (Package × List Dep)) (p : Package) (deps : List Dep) (d : Dep),
      (p, deps) ∈ es → d ∈ deps → d.is_missing = false →
      (d.version_spec = none ∨ d.version_spec = some "") →
      ∃ pid did, lookupId (renderState (.forward es)).idMap p.key = some pid ∧
        lookupId (renderState (.forward es)).idMap d.key = some did ∧
        mkSolid pid "any" did ∈ (renderState (.forward es)).edges) ∧
    (∀ (es : List (Package × List RevDep)) (p : Package) (deps : List RevDep) (d : RevDep),
      (p, deps) ∈ es → d ∈ deps →
      (d.req_version_spec = none ∨ d.req_version_spec = some "") →
      ∃ pid did, lookupId (renderState (.reversed es)).idMap p.key = some pid ∧
        lookupId (renderState (.reversed es)).idMap d.key = some did ∧
        mkSolid pid "any" did ∈ (renderState (.reversed es)).edges) := by
  constructor
  · intro es p deps d he hd hm hspec
    have hany : orAny d.version_spec = "any" := by
      rcases hspec with h | h <;> simp [orAny, h]
    obtain ⟨pid, hlp, -, hdeps⟩ := fwdEntry_member he
    obtain ⟨did, hld, -, hsolid⟩ := hdeps d hd
    refine ⟨pid, did, hlp, hld, ?_⟩
    have := hsolid hm
    rw [hany] at this
    exact this
  · intro es p deps d he hd hspec
    have hany : orAny d.req_version_spec = "any" := by
      rcases hspec with h | h <;> simp [orAny, h]
    obtain ⟨pid, hlp, -, hdeps⟩ := revEntry_member he
    obtain ⟨did, hld, hsolid⟩ := hdeps d hd
    refine ⟨pid, did, hlp, hld, ?_⟩
    rw [hany] at hsolid
    exact hsolid

/-- Witness for claim C6 at the specification's own example: `A` version
`1.0` depends on `B` version `2.0` with no constraint. -/
theorem unconstrained_edges_render_any_witness :
    "A[\"A\\n1.0\"]" ∈ (renderState (.forward [(⟨"A", "A", "1.0", "1.0", false⟩,
      [⟨"B", "B", none, false⟩]), (⟨"B", "B", "2.0", "2.0", false⟩, [])])).nodes ∧
    "B[\"B\\n2.0\"]" ∈ (renderState (.forward [(⟨"A", "A", "1.0", "1.0", false⟩,
      [⟨"B", "B", none, false⟩]), (⟨"B", "B", "2.0", "2.0", false⟩, [])])).nodes ∧
    "A -- \"any\" --> B" ∈ (renderState (.forward [(⟨"A", "A", "1.0", "1.0", false⟩,
      [⟨"B", "B", none, false⟩]), (⟨"B", "B", "2.0", "2.0", false⟩, [])])).edges ∧
    (∃ pid did, lookupId (renderState (.forward [(⟨"A", "A", "1.0", "1.0", false⟩,
        [⟨"B", "B", none, false⟩]), (⟨"B", "B", "2.0", "2.0", false⟩, [])])).idMap "A"
          = some pid ∧
      lookupId (renderState (.forward [(⟨"A", "A", "1.0", "1.0", false⟩,
        [⟨"B", "B", none, false⟩]), (⟨"B", "B", "2.0", "2.0", false⟩, [])])).idMap "B"
          = some did ∧
      mkSolid pid "any" did ∈ (renderState (.forward [(⟨"A", "A", "1.0", "1.0", false⟩,
        [⟨"B", "B", none, false⟩]), (⟨"B", "B", "2.0", "2.0", false⟩, [])])).edges) := by
  refine ⟨by decide, by decide, by decide, ?_⟩
  exact unconstrained_edges_render_any.1
    [((⟨"A", "A", "1.0", "1.0", false⟩ : Package), [(⟨"B", "B", none, false⟩ : Dep)]),
     ((⟨"B", "B", "2.0", "2.0", false⟩ : Package), [])]
    ⟨"A", "A", "1.0", "1.0", false⟩ [⟨"B", "B", none, false⟩] ⟨"B", "B", none, false⟩
    (by decide) (by decide) (by decide) (Or.inl rfl)

/-! ### Claim C7 -/

/-- Claim C7 (confirmed): `mermaid_id` never returns a member of
`_RESERVED_IDS` — a non-reserved key maps to itself, a reserved key maps to
a suffixed candidate, and no reserved word extends another reserved word by
an underscore; consequently no identifier stored in the map of any render
call is reserved. -/
theorem no_identifier_is_reserved :
    (∀ (m : IdMap) (key : String), MapVals m → (mermaid_id m key).1 ∉ _RESERVED_IDS) ∧
    (∀ (g : PackageDAG) (k v : String),
      lookupId (renderState g).idMap k = some v → v ∉ _RESERVED_IDS) :=
  ⟨fun _ key h => mermaid_id_fst_not_reserved key h,
   fun g _ _ h => mapVals_not_reserved (stinv_renderState g).2.1 (lookupId_mem h)⟩

/-- Witness for claim C7 on the empty map and on a rendered graph whose only
key is the reserved word `"class"`. -/
theorem no_identifier_is_reserved_witness :
    MapVals [] ∧ (mermaid_id [] "graph").1 ∉ _RESERVED_IDS ∧
    lookupId (renderState (.forward [(⟨"class", "C", "1", "1", false⟩, [])])).idMap "class"
      = some "class_0" ∧
    "class_0" ∉ _RESERVED_IDS := by
  have hmv : MapVals ([] : IdMap) := fun p hp => absurd hp (List.not_mem_nil p)
  refine ⟨hmv, no_identifier_is_reserved.1 [] "graph" hmv, by decide, ?_⟩
  exact no_identifier_is_reserved.2
    (.forward [(⟨"class", "C", "1", "1", false⟩, [])]) "class" "class_0" (by decide)

/-! ### Claim C8 -/

/-- Claim C8 (confirmed): `render_mermaid` is a deterministic function of the
graph instance with no state carried between calls — every call starts from
`initState` and threads all state locally, so two calls on equal graph
instances return byte-identical strings. -/
theorem render_mermaid_deterministic (g g' : PackageDAG) (h : g = g') :
    render_mermaid g = render_mermaid g' := by
  rw [h]

/-- Witness for claim C8 at a concrete graph. -/
theorem render_mermaid_deterministic_witness :
    (PackageDAG.forward [(⟨"a", "A", "1", "1", false⟩, [])])
      = (PackageDAG.forward [(⟨"a", "A", "1", "1", false⟩, [])]) ∧
    render_mermaid (.forward [(⟨"a", "A", "1", "1", false⟩, [])])
      = render_mermaid (.forward [(⟨"a", "A", "1", "1", false⟩, [])]) :=
  ⟨rfl, render_mermaid_deterministic _ _ rfl⟩

/-! ### Claim C9 -/

/-- Claim C9, counterexample: the empty graph's output does not consist of
the header and classDef lines alone — it contains further lines (two lines
holding only the four-space indent). -/
theorem empty_graph_has_indent_only_lines :
    ∃ l ∈ strLines (render_mermaid (.forward [])),
      l ≠ "flowchart TD" ∧ l ≠ "    classDef missing stroke-dasharray: 5" ∧ l ≠ "" := by
  decide

/-- Claim C9 (amended): the empty graph's output is exactly the header line,
the classDef line, and two lines holding only the four-space indent (the
emitter writes the indent before each of the two empty declaration blocks),
with a terminating newline. -/
theorem empty_graph_output_exact :
    render_mermaid (.forward []) =
      "flowchart TD\n    classDef missing stroke-dasharray: 5\n    \n    \n" ∧
    render_mermaid (.reversed []) =
      "flowchart TD\n    classDef missing stroke-dasharray: 5\n    \n    \n" ∧
    strLines (render_mermaid (.forward [])) =
      ["flowchart TD", "    classDef missing stroke-dasharray: 5", "    ", "    ", ""] := by
  refine ⟨by decide, by decide, by decide⟩

/-! ### Claim C10 -/

/-- Claim C10 (confirmed): in reverse mode a missing top-level package is
declared with `"(missing)"` as the second line of its label but without the
`:::missing` style tag (no reverse-mode node declaration carries the tag),
and every reverse-mode edge is a labeled solid edge; a dashed edge is never
emitted in reverse mode. -/
theorem reverse_mode_missing_label_and_labeled_edges :
    (∀ (es : List (Package × List RevDep)) (p : Package) (deps : List RevDep),
      (p, deps) ∈ es → p.is_missing = true →
      ∃ pid, lookupId (renderState (.reversed es)).idMap p.key = some pid ∧
        mkNode pid (p.project_name ++ "\\n(missing)")
          ∈ (renderState (.reversed es)).nodes) ∧
    (∀ (es : List (Package × List RevDep)) (x : String),
      x ∈ (renderState (.reversed es)).nodes → ¬ taggedMissing x) ∧
    (∀ (es : List (Package × List RevDep)) (x : String),
      x ∈ (renderState (.reversed es)).edges → ∃ a l b, x = mkSolid a l b) := by
  refine ⟨?_, ?_, ?_⟩
  · intro es p deps he hm
    obtain ⟨pid, hl, hn, -⟩ := revEntry_member he
    refine ⟨pid, hl, ?_⟩
    have hlabel : revLabel p = p.project_name ++ "\\n(missing)" := by
      rw [revLabel, hm]
      rw [if_pos rfl, String.append_assoc]
      exact congrArg (p.project_name ++ ·) rfl
    rw [← hlabel]
    exact hn
  · intro es x hx
    rcases revEntries_nodes_shape es initState x hx with h | h
    · exact absurd h (List.not_mem_nil x)
    · obtain ⟨a, l, rfl⟩ := h
      exact mkNode_not_tagged a l
  · intro es x hx
    rcases revEntries_edges_shape es initState x hx with h | h
    · exact absurd h (List.not_mem_nil x)
    · exact h

/-- Witness for claim C10 at a concrete reverse graph with a missing
top-level package and one dependent. -/
theorem reverse_mode_missing_label_and_labeled_edges_witness :
    ((⟨"m", "M", "9", "9", true⟩ : Package), [(⟨"y", some ">=1.0"⟩ : RevDep)]) ∈
      [((⟨"m", "M", "9", "9", true⟩ : Package), [(⟨"y", some ">=1.0"⟩ : RevDep)])] ∧
    "m -- \">=1.0\" --> y" ∈ (renderState (.reversed [(⟨"m", "M", "9", "9", true⟩,
      [⟨"y", some ">=1.0"⟩])])).edges ∧
    (∃ pid, lookupId (renderState (.reversed [(⟨"m", "M", "9", "9", true⟩,
        [⟨"y", some ">=1.0"⟩])])).idMap "m" = some pid ∧
      mkNode pid ("M" ++ "\\n(missing)") ∈ (renderState (.reversed
        [(⟨"m", "M", "9", "9", true⟩, [⟨"y", some ">=1.0"⟩])])).nodes) := by
  refine ⟨by decide, by decide, ?_⟩
  exact reverse_mode_missing_label_and_labeled_edges.1
    [((⟨"m", "M", "9", "9", true⟩ : Package), [(⟨"y", some ">=1.0"⟩ : RevDep)])]
    ⟨"m", "M", "9", "9", true⟩ [⟨"y", some ">=1.0"⟩] (by decide) (by decide)

/-! ### Justification of the probe fuel: the bounded `probeLoop` agrees with
the unbounded Python `while True` loop.  Decimal representations of distinct
numbers are distinct, so among the first `|keys| + 1` candidates at least one
is free, and the loop stops at the least free suffix before exhausting its
fuel. -/

theorem toDigitsCore_eq :
    ∀ (f n : Nat) (l : List Char), n < f →
      Nat.toDigitsCore 10 f n l = myDigits n ++ l := by
  intro f
  induction f with
  | zero =>
    intro n l h
    exact absurd h (Nat.not_lt_zero n)
  | succ f ih =>
    intro n l h
    show (if n / 10 = 0 then Nat.digitChar (n % 10) :: l
        else Nat.toDigitsCore 10 f (n / 10) (Nat.digitChar (n % 10) :: l)) = myDigits n ++ l
    by_cases hdiv : n / 10 = 0
    · have hlt : n < 10 := (Nat.div_eq_zero_iff (by omega)).mp hdiv
      rw [if_pos hdiv, myDigits, dif_pos hlt, Nat.mod_eq_of_lt hlt]
      rfl
    · have hge : ¬ n < 10 := fun hlt => hdiv ((Nat.div_eq_zero_iff (by omega)).mpr hlt)
      have hpos : 0 < n := by omega
      have hstep : n / 10 < n := Nat.div_lt_self hpos (by omega)
      rw [if_neg hdiv, ih (n / 10) (Nat.digitChar (n % 10) :: l) (by omega)]
      conv_rhs => rw [myDigits]
      rw [dif_neg hge, List.append_assoc]
      rfl

theorem repr_data (n : Nat) : (Nat.repr n).data = myDigits n := by
  show ((Nat.toDigits 10 n).asString).data = myDigits n
  rw [Nat.toDigits, toDigitsCore_eq (n + 1) n [] (Nat.lt_succ_self n), List.append_nil]
  rfl

theorem charDigit_digitChar {k : Nat} (h : k < 10) : charDigit (Nat.digitChar k) = k := by
  have hall : ∀ k, k < 10 → charDigit (Nat.digitChar k) = k := by decide
  exact hall k h

theorem valFrom_myDigits (n : Nat) :
    ∀ (a : Nat), valFrom a (myDigits n) = a * 10 ^ (myDigits n).length + n := by
  induction n using Nat.strong_induction_on with
  | _ n ih =>
    intro a
    by_cases h : n < 10
    · rw [myDigits, dif_pos h]
      show 10 * a + charDigit (Nat.digitChar n) = a * 10 ^ 1 + n
      rw [charDigit_digitChar h]
      ring
    · have hpos : 0 < n := by omega
      have hstep : n / 10 < n := Nat.div_lt_self hpos (by omega)
      rw [myDigits, dif_neg h]
      have hv : valFrom a (myDigits (n / 10) ++ [Nat.digitChar (n % 10)])
          = 10 * valFrom a (myDigits (n / 10)) + charDigit (Nat.digitChar (n % 10)) := by
        rw [valFrom, List.foldl_append]
        rfl
      rw [hv, ih (n / 10) hstep a, charDigit_digitChar (Nat.mod_lt n (by omega)),
        List.length_append, List.length_singleton, pow_succ]
      have hdm := Nat.div_add_mod n 10
      calc 10 * (a * 10 ^ (myDigits (n / 10)).length + n / 10) + n % 10
          = a * (10 ^ (myDigits (n / 10)).length * 10) + (10 * (n / 10) + n % 10) := by ring
        _ = a * (10 ^ (myDigits (n / 10)).length * 10) + n := by omega

theorem myDigits_inj {m n : Nat} (h : myDigits m = myDigits n) : m = n := by
  have hm := valFrom_myDigits m 0
  have hn := valFrom_myDigits n 0
  rw [h] at hm
  rw [hn] at hm
  simpa using hm.symm

theorem repr_inj {m n : Nat} (h : Nat.repr m = Nat.repr n) : m = n :=
  myDigits_inj (by rw [← repr_data, ← repr_data, h])

theorem candidateId_inj (key : String) : Function.Injective (candidateId key) := by
  intro m n h
  have hd := congrArg String.data h
  rw [candidateId, candidateId, String.data_append, String.data_append,
    String.data_append, String.data_append, List.append_assoc, List.append_assoc] at hd
  exact repr_inj (str_ext (List.append_cancel_left (List.append_cancel_left hd)))

theorem exists_free_candidate (ks : List String) (key : String) :
    ∃ i, i < ks.length + 1 ∧ candidateId key i ∉ ks := by
  by_contra hc
  push_neg at hc
  have hsub : ((List.range (ks.length + 1)).map (candidateId key)) ⊆ ks := by
    intro x hx
    rw [List.mem_map] at hx
    obtain ⟨i, hi, rfl⟩ := hx
    exact hc i (List.mem_range.mp hi)
  have hnd : ((List.range (ks.length + 1)).map (candidateId key)).Nodup :=
    (List.nodup_range _).map (candidateId_inj key)
  have hlen := (hnd.subperm hsub).length_le
  simp at hlen

theorem probeLoop_spec (ks : List String) (key : String) :
    ∀ (fuel n : Nat), (∃ i, n ≤ i ∧ i < n + fuel ∧ candidateId key i ∉ ks) →
      candidateId key (probeLoop ks key fuel n) ∉ ks ∧
      n ≤ probeLoop ks key fuel n ∧
      ∀ m, n ≤ m → m < probeLoop ks key fuel n → candidateId key m ∈ ks
  | 0, n, h => by
    obtain ⟨i, h1, h2, -⟩ := h
    omega
  | fuel + 1, n, h => by
    by_cases hc : candidateId key n ∈ ks
    · simp only [probeLoop, if_pos hc]
      have h' : ∃ i, n + 1 ≤ i ∧ i < (n + 1) + fuel ∧ candidateId key i ∉ ks := by
        obtain ⟨i, h1, h2, h3⟩ := h
        refine ⟨i, ?_, by omega, h3⟩
        rcases Nat.eq_or_lt_of_le h1 with rfl | hlt
        · exact absurd hc h3
        · omega
      obtain ⟨hfree, hge, hleast⟩ := probeLoop_spec ks key fuel (n + 1) h'
      refine ⟨hfree, by omega, ?_⟩
      intro m hm1 hm2
      rcases Nat.eq_or_lt_of_le hm1 with rfl | hlt
      · exact hc
      · exact hleast m hlt hm2
    · simp only [probeLoop, if_neg hc]
      exact ⟨hc, Nat.le_refl n, fun m h1 h2 => absurd (Nat.lt_of_le_of_lt h1 h2)
        (Nat.lt_irrefl n)⟩

/-- The fuel `|node_ids_map| + 1` passed by `mermaid_id` is always
sufficient: the bounded probe stops, before exhausting its fuel, at exactly
the least suffix whose candidate is not a key of the map — the same value
the unbounded Python `while True` loop computes. -/
theorem probeLoop_finds_least (m : IdMap) (key : String) :
    candidateId key (probeLoop (keysOf m) key (m.length + 1) 0) ∉ keysOf m ∧
    ∀ j < probeLoop (keysOf m) key (m.length + 1) 0, candidateId key j ∈ keysOf m := by
  have hlen : m.length = (keysOf m).length := (List.length_map m Prod.fst).symm
  obtain ⟨i, hi, hfree⟩ := exists_free_candidate (keysOf m) key
  obtain ⟨h1, -, h3⟩ := probeLoop_spec (keysOf m) key (m.length + 1) 0
    ⟨i, Nat.zero_le i, by omega, hfree⟩
  exact ⟨h1, fun j hj => h3 j (Nat.zero_le j) hj⟩

end Mermaid
